import Mathlib

/-!
# Housing-inventory dashboard: the data pipeline of `Dashboard.jsx`

A shallow embedding of the pure data transformations of
`src/components/Dashboard.jsx`:

* the numeric coercion done by `loadCSV` on the records delivered by the CSV
  parser;
* the date-range filter behind `chartData` and `getTopStates`;
* the top-5 ranking `getTopStates`;
* the selection transition `handleStateToggle`;
* the rendering order `sortedStates`;
* the percent-change computed in `CustomTooltip`.

## Conventions of the embedding

* A JavaScript number is a `JsNum`: a finite value, `NaN`, `+Infinity` or
  `-Infinity`.  A finite value is carried as a rational and the sign of
  zero is not represented.  `Number(text)` rounds to binary64, with
  overflow and gradual underflow (`toDouble`); the arithmetic operators are
  carried exactly: the sign of a difference of two binary64 values is the
  sign of their exact difference, and the tooltip formula is compared with
  the same formula.
* A JavaScript string is a Lean `String`; the relational operators on
  strings compare UTF-16 code units, which `utf16Units` computes.
* A JavaScript object is the list of its own properties in the order of
  their creation; a read falls back on the members of `Object.prototype`.
* `Array.prototype.sort` is the stable sort the language standard mandates
  for a consistent comparator; a comparator result of `NaN` counts as `0`.
-/

set_option maxRecDepth 100000

namespace Dashboard

/-! ## Numbers -/

/-- A JavaScript number: a finite value, `NaN`, or one of the infinities. -/
inductive JsNum where
  | fin (q : ℚ)
  | nan
  | posInf
  | negInf
  deriving DecidableEq

namespace JsNum

/-- The predicate `Number.isFinite`. -/
def isFinite : JsNum → Bool
  | fin _ => true
  | _ => false

/-- Unary minus. -/
def neg : JsNum → JsNum
  | fin q => fin (-q)
  | nan => nan
  | posInf => negInf
  | negInf => posInf

/-- The binary operator `a - b`. -/
def sub : JsNum → JsNum → JsNum
  | nan, _ => nan
  | _, nan => nan
  | fin a, fin b => fin (a - b)
  | fin _, posInf => negInf
  | fin _, negInf => posInf
  | posInf, posInf => nan
  | posInf, _ => posInf
  | negInf, negInf => nan
  | negInf, _ => negInf

/-- The function `Math.abs`. -/
def abs : JsNum → JsNum
  | fin q => fin |q|
  | nan => nan
  | posInf => posInf
  | negInf => posInf

/-- The binary operator `a / b` (a zero divisor is taken as `+0`). -/
def div : JsNum → JsNum → JsNum
  | nan, _ => nan
  | _, nan => nan
  | fin a, fin b =>
    if b = 0 then (if a = 0 then nan else if 0 < a then posInf else negInf)
    else fin (a / b)
  | fin _, posInf => fin 0
  | fin _, negInf => fin 0
  | posInf, fin b => if 0 ≤ b then posInf else negInf
  | negInf, fin b => if 0 ≤ b then negInf else posInf
  | posInf, _ => nan
  | negInf, _ => nan

/-- The binary operator `a * b`. -/
def mul : JsNum → JsNum → JsNum
  | nan, _ => nan
  | _, nan => nan
  | fin a, fin b => fin (a * b)
  | fin a, posInf => if a = 0 then nan else if 0 < a then posInf else negInf
  | fin a, negInf => if a = 0 then nan else if 0 < a then negInf else posInf
  | posInf, fin b => if b = 0 then nan else if 0 < b then posInf else negInf
  | negInf, fin b => if b = 0 then nan else if 0 < b then negInf else posInf
  | posInf, posInf => posInf
  | posInf, negInf => negInf
  | negInf, posInf => negInf
  | negInf, negInf => posInf

/-- The test `x > 0`; false for `NaN`. -/
def isPos : JsNum → Bool
  | fin q => decide (0 < q)
  | posInf => true
  | _ => false

/-- The relational operator `a <= b`; false as soon as one side is `NaN`. -/
def le : JsNum → JsNum → Bool
  | nan, _ => false
  | _, nan => false
  | negInf, _ => true
  | _, posInf => true
  | fin a, fin b => decide (a ≤ b)
  | fin _, negInf => false
  | posInf, _ => false

/-- The relational operator `a < b`; false as soon as one side is `NaN`. -/
def lt : JsNum → JsNum → Bool
  | nan, _ => false
  | _, nan => false
  | fin a, fin b => decide (a < b)
  | negInf, negInf => false
  | negInf, _ => true
  | posInf, _ => false
  | fin _, posInf => true
  | fin _, negInf => false

/-- Replace `NaN` by `0`; the identity on every other number.  Used to
state the order in which a consistent comparator sorts. -/
def nanToZero : JsNum → JsNum
  | nan => fin 0
  | n => n

/-- Truthiness of a number: every number but `0` and `NaN` is truthy. -/
def truthy : JsNum → Bool
  | fin q => decide (q ≠ 0)
  | nan => false
  | _ => true

end JsNum

/-! ## Strings -/

/-- The UTF-16 code units of one character. -/
def charUnits (c : Char) : List Nat :=
  if c.toNat < 65536 then [c.toNat]
  else [55296 + (c.toNat - 65536) / 1024, 56320 + (c.toNat - 65536) % 1024]

/-- The UTF-16 code units of a string, which the relational operators
compare. -/
def utf16Units (s : String) : List Nat :=
  s.data.flatMap charUnits

/-- The relational operator `a < b` on two strings. -/
def strLt (a b : String) : Bool :=
  decide (utf16Units a < utf16Units b)

/-- The relational operator `a <= b` on two strings, which the language
evaluates as `!(b < a)`. -/
def strLe (a b : String) : Bool :=
  !strLt b a

/-- The relational operator `a >= b` on two strings, which the language
evaluates as `!(a < b)`. -/
def strGe (a b : String) : Bool :=
  !strLt a b

/-- White space and line terminators, the characters `trim` and the
string-to-number conversion strip. -/
def isJsWhiteSpace (c : Char) : Bool :=
  c.toNat ∈ [9, 10, 11, 12, 13, 32, 160, 5760, 8232, 8233, 8239, 8287, 12288, 65279]
    || (8192 ≤ c.toNat && c.toNat ≤ 8202)

/-- Strip white space on both sides of a character list. -/
def trimChars (cs : List Char) : List Char :=
  ((cs.dropWhile isJsWhiteSpace).reverse.dropWhile isJsWhiteSpace).reverse

/-- The method `String.prototype.trim`. -/
def jsTrim (s : String) : String :=
  String.mk (trimChars s.data)

/-- The call `val.replace(/,/g, '')`: every comma is removed. -/
def stripCommas (s : String) : String :=
  String.mk (s.data.filter (fun c => c != ','))

/-! ## String to number -/

/-- Value of a digit character in a radix up to 16 (`none` when it is not a
digit of that radix). -/
def digitOf (radix : Nat) (c : Char) : Option Nat :=
  let v :=
    if 48 ≤ c.toNat ∧ c.toNat ≤ 57 then some (c.toNat - 48)
    else if 97 ≤ c.toNat ∧ c.toNat ≤ 102 then some (c.toNat - 87)
    else if 65 ≤ c.toNat ∧ c.toNat ≤ 70 then some (c.toNat - 55)
    else none
  v.bind (fun d => if d < radix then some d else none)

/-- A decimal digit. -/
def isDecDigit (c : Char) : Bool :=
  48 ≤ c.toNat && c.toNat ≤ 57

/-- Value of a list of decimal digits, most significant first. -/
def decValue (ds : List Char) : Nat :=
  ds.foldl (fun acc c => 10 * acc + (c.toNat - 48)) 0

/-- Value of a list of digits in a radix, `none` when the list is empty or
holds a character that is not a digit of the radix. -/
def radixValue (radix : Nat) (ds : List Char) : Option Nat :=
  if ds = [] then none
  else ds.foldl (fun acc c => acc.bind (fun a => (digitOf radix c).map (fun d => radix * a + d)))
    (some 0)

/-- The mathematical value of a numeric literal: a rational number, or an
infinity for the literal `Infinity`. -/
inductive MathValue where
  | finite (q : ℚ)
  | infinite (negative : Bool)
  deriving DecidableEq

/-- The value with the opposite sign. -/
def MathValue.neg : MathValue → MathValue
  | MathValue.finite q => MathValue.finite (-q)
  | MathValue.infinite negative => MathValue.infinite (!negative)

/-- The production `SignedInteger` of an exponent part. -/
def parseSignedInteger (cs : List Char) : Option Int :=
  let body (ds : List Char) : Option Nat :=
    if ds ≠ [] ∧ ds.all isDecDigit then some (decValue ds) else none
  match cs with
  | '+' :: ds => (body ds).map (fun n => (n : Int))
  | '-' :: ds => (body ds).map (fun n => -(n : Int))
  | ds => (body ds).map (fun n => (n : Int))

/-- The production `StrUnsignedDecimalLiteral` without `Infinity`:
`digits [. digits?] [exponent]` or `. digits [exponent]`. -/
def parseUnsignedDecimal (cs : List Char) : Option ℚ :=
  let ip := cs.takeWhile isDecDigit
  let r1 := cs.dropWhile isDecDigit
  let fp := match r1 with
    | '.' :: t => t.takeWhile isDecDigit
    | _ => []
  let r2 := match r1 with
    | '.' :: t => t.dropWhile isDecDigit
    | _ => r1
  if ip = [] ∧ fp = [] then none
  else
    let mantissa : ℚ := (decValue ip : ℚ) + (decValue fp : ℚ) / (10 : ℚ) ^ fp.length
    match r2 with
    | [] => some mantissa
    | e :: t =>
      if e = 'e' ∨ e = 'E' then (parseSignedInteger t).map (fun k => mantissa * (10 : ℚ) ^ k)
      else none

/-- An unsigned literal: `Infinity` or an unsigned decimal literal; `none`
when the text is neither. -/
def parseUnsignedLiteral (cs : List Char) : Option MathValue :=
  if cs = ['I', 'n', 'f', 'i', 'n', 'i', 't', 'y'] then some (MathValue.infinite false)
  else (parseUnsignedDecimal cs).map MathValue.finite

/-- The radix announced by a `0x`, `0o` or `0b` prefix, with the digits
that follow it. -/
def radixPrefix (cs : List Char) : Option (Nat × List Char) :=
  match cs with
  | c0 :: c1 :: ds =>
    if c0 = '0' then
      if c1 = 'x' ∨ c1 = 'X' then some (16, ds)
      else if c1 = 'o' ∨ c1 = 'O' then some (8, ds)
      else if c1 = 'b' ∨ c1 = 'B' then some (2, ds)
      else none
    else none
  | _ => none

/-- The mathematical value of the text of a `StringNumericLiteral`, white
space already stripped: the empty text is `0`; `none` when the text is not
a numeric literal. -/
def literalValue (cs : List Char) : Option MathValue :=
  if cs = [] then some (MathValue.finite 0)
  else match radixPrefix cs with
    | some (radix, ds) => (radixValue radix ds).map (fun n => MathValue.finite n)
    | none =>
      match cs with
      | '+' :: rest => parseUnsignedLiteral rest
      | '-' :: rest => (parseUnsignedLiteral rest).map MathValue.neg
      | _ => parseUnsignedLiteral cs

/-- Round to the nearest integer, ties to the even one. -/
def roundHalfEven (x : ℚ) : ℤ :=
  let f := ⌊x⌋
  let r := x - f
  if r < 1 / 2 then f else if 1 / 2 < r then f + 1 else if f % 2 = 0 then f else f + 1

/-- The integer `k` with `2^k ≤ a < 2^(k+1)`, for a positive `a`. -/
def floorLog2 (a : ℚ) : ℤ :=
  let k : ℤ := (Nat.log2 a.num.natAbs : ℤ) - (Nat.log2 a.den : ℤ)
  if (2 : ℚ) ^ k ≤ a then k else k - 1

/-- The binary64 value nearest to `q`, ties to even, for `q` below the
overflow threshold: 53 significant bits, the exponent not below `-1022`
(gradual underflow). -/
def roundBinary64 (q : ℚ) : ℚ :=
  if q = 0 then 0
  else
    let a := |q|
    let e := max (floorLog2 a) (-1022)
    let ulp := (2 : ℚ) ^ (e - 52)
    let m := roundHalfEven (a / ulp)
    if q < 0 then -((m : ℚ) * ulp) else (m : ℚ) * ulp

/-- The magnitude from which rounding to nearest gives an infinity:
`2^1024 - 2^970`, half a unit in the last place above the largest finite
binary64 value. -/
def overflowThreshold : ℚ :=
  (2 : ℚ) ^ 1024 - (2 : ℚ) ^ 970

/-- The Number value for a rational: rounding to binary64 with overflow to
an infinity. -/
def toDouble (q : ℚ) : JsNum :=
  if overflowThreshold ≤ |q| then (if 0 < q then JsNum.posInf else JsNum.negInf)
  else JsNum.fin (roundBinary64 q)

/-- The Number value of a mathematical value. -/
def MathValue.toNumber : MathValue → JsNum
  | MathValue.finite q => toDouble q
  | MathValue.infinite negative => if negative then JsNum.negInf else JsNum.posInf

/-- The conversion `Number(s)` of a string: white space is stripped, a
numeric literal is its value rounded to binary64 and any other text is
`NaN`. -/
def stringToNumber (s : String) : JsNum :=
  match literalValue (trimChars s.data) with
  | some v => v.toNumber
  | none => JsNum.nan

/-! ## Values and objects -/

/-- The JavaScript values that occur in a record or a row: primitives, an
array of strings (what the CSV parser stores under `__parsed_extra`), and a
member inherited from `Object.prototype` (a function, or the prototype
itself for `__proto__`). -/
inductive Val where
  | undefined
  | null
  | num (n : JsNum)
  | str (s : String)
  | arr (items : List String)
  | inherited
  deriving DecidableEq

/-- The test `v` is a finite number or `null`. -/
def Val.isFiniteOrNull : Val → Bool
  | Val.null => true
  | Val.num n => n.isFinite
  | _ => false

/-- Truthiness of a value. -/
def Val.truthy : Val → Bool
  | Val.undefined => false
  | Val.null => false
  | Val.num n => n.truthy
  | Val.str s => s != ""
  | Val.arr _ => true
  | Val.inherited => true

/-- The conversion `Number(v)`: an array is first joined with commas, a
function or plain object converts to text that is no numeric literal. -/
def Val.toNumber : Val → JsNum
  | Val.undefined => JsNum.nan
  | Val.null => JsNum.fin 0
  | Val.num n => n
  | Val.str s => stringToNumber s
  | Val.arr items => stringToNumber (String.intercalate "," items)
  | Val.inherited => JsNum.nan

/-- The names every plain object inherits from `Object.prototype`. -/
def objectPrototypeMembers : List String :=
  ["constructor", "__defineGetter__", "__defineSetter__", "hasOwnProperty",
    "__lookupGetter__", "__lookupSetter__", "isPrototypeOf", "propertyIsEnumerable",
    "toString", "valueOf", "__proto__", "toLocaleString"]

/-- A plain object: its own properties in the order of their creation (the
first pair of a name is the property).  The name `__proto__` is never an
own property: assigning a string or a number under it is ignored by the
accessor of `Object.prototype`. -/
abbrev Obj := List (String × Val)

/-- The own property of a name, `none` when the object has none. -/
def Obj.own (o : Obj) (k : String) : Option Val :=
  if k = "__proto__" then none else o.lookup k

/-- Property read `o[k]`: the own property, else the member inherited from
`Object.prototype`, else `undefined`. -/
def Obj.get (o : Obj) (k : String) : Val :=
  match Obj.own o k with
  | some v => v
  | none => if k ∈ objectPrototypeMembers then Val.inherited else Val.undefined

/-- Property write `o[k] = v` of a primitive: an existing own property
keeps its position, a new one is appended, and a write under `__proto__`
is ignored. -/
def Obj.set (o : Obj) (k : String) (v : Val) : Obj :=
  if k = "__proto__" then o
  else match o with
    | [] => [(k, v)]
    | (k', v') :: rest => if k' = k then (k, v) :: rest else (k', v') :: Obj.set rest k v

/-- An array index: the canonical decimal text of an integer up to
`2^32 - 2`. -/
def isArrayIndex (k : String) : Bool :=
  k.data != [] && k.data.all isDecDigit && (k.data == ['0'] || k.data.head? != some '0')
    && decide (decValue k.data ≤ 4294967294)

/-- The call `Object.keys(o)`: the own names, array indices first in
ascending numeric order, then the other names in the order of creation. -/
def Obj.keys (o : Obj) : List String :=
  let names := ((o.map Prod.fst).filter (fun k => k != "__proto__")).eraseDups
  (names.filter isArrayIndex).insertionSort (fun a b => decValue a.data ≤ decValue b.data)
    ++ names.filter (fun k => !isArrayIndex k)

/-! ## The loader (`loadCSV`, the `complete` callback)

The argument `results.data` is a list of plain objects as the CSV parser
builds them with `header: true`: one string per header field the line has,
and an array of strings under `__parsed_extra` when the line has more
fields than the header. -/

/-- The coercion of one cell, lines 39 to 41: commas are stripped from a
string, then `val === '' || val == null ? null : Number(val)`. -/
def coerceCell (raw : Val) : Val :=
  let val := match raw with
    | Val.str s => Val.str (stripCommas s)
    | v => v
  if val = Val.str "" ∨ val = Val.null ∨ val = Val.undefined then Val.null
  else Val.num val.toNumber

/-- The body of `rows.map(row => ...)`, lines 36 to 44: `newRow` starts as
`{ date: row.date }` and receives one coerced value per series name. -/
def coerceRow (stateCols : List String) (row : Obj) : Obj :=
  stateCols.foldl (fun newRow state => Obj.set newRow state (coerceCell (Obj.get row state)))
    [("date", Obj.get row "date")]

/-- The row filter of line 32: `row.date && Object.keys(row).length > 1`. -/
def acceptedRow (row : Obj) : Bool :=
  (Obj.get row "date").truthy && decide (1 < (Obj.keys row).length)

/-- The series names of line 35, read from the first accepted row. -/
def stateColsOf (row0 : Obj) : List String :=
  ((Obj.keys row0).filter (fun k => k != "date" && k != "")).map jsTrim

/-- The component state written by a successful load. -/
structure Loaded where
  data : List Obj
  availableDates : List Val
  rangeStart : Val
  rangeEnd : Val
  allStates : List String
  deriving DecidableEq

/-- The `complete` callback of `loadCSV` applied to `results.data`; `none`
when no row is accepted, in which case the state is left as it was. -/
def loadCSV (resultsData : List Obj) : Option Loaded :=
  let rows := resultsData.filter acceptedRow
  match rows with
  | [] => none
  | row0 :: _ =>
    let stateCols := stateColsOf row0
    let rows' := rows.map (coerceRow stateCols)
    some
      { data := rows'
        availableDates := rows'.map (fun row => Obj.get row "date")
        rangeStart := match rows'.head? with
          | some r => Obj.get r "date"
          | none => Val.undefined
        rangeEnd := match rows'.getLast? with
          | some r => Obj.get r "date"
          | none => Val.undefined
        allStates := stateCols }

/-! ## Loaded rows and the component state -/

/-- A loaded row as the rest of the component reads it: `date` is a string
and every series value is a number or `null`; `none` stands for `null` and
for a key the row does not have (`undefined`), which the code never tells
apart (`!= null`, `|| 0`). -/
structure Row where
  date : String
  cells : List (String × Option JsNum)
  deriving DecidableEq

/-- Property read `row[state]` on a loaded row. -/
def Row.get (row : Row) (state : String) : Option JsNum :=
  match row.cells.lookup state with
  | some v => v
  | none => none

/-- The state `dateRange`: `{ start, end }`. -/
structure DateRange where
  start : String
  end_ : String

/-- The predicate `date >= dateRange.start && date <= dateRange.end` of
lines 76 and 110. -/
def inRange (dateRange : DateRange) (date : String) : Bool :=
  strGe date dateRange.start && strLe date dateRange.end_

/-- Line 110: `data.filter(row => row.date >= dateRange.start &&
row.date <= dateRange.end)`. -/
def chartData (data : List Row) (dateRange : DateRange) : List Row :=
  data.filter (fun row => inRange dateRange row.date)

/-! ## Sorting -/

/-- Insertion of `x` in front of a sorted list: `x` moves past `y` only
when the comparator is positive on `(x, y)`, so equal elements keep their
order (`NaN` is not positive and counts as `0`). -/
def sortInsert {α : Type} (cmp : α → α → JsNum) (x : α) : List α → List α
  | [] => [x]
  | y :: ys => if (cmp x y).isPos then y :: sortInsert cmp x ys else x :: y :: ys

/-- The method `Array.prototype.sort(cmp)`: a stable sort. -/
def jsSort {α : Type} (cmp : α → α → JsNum) : List α → List α
  | [] => []
  | x :: xs => sortInsert cmp x (jsSort cmp xs)

/-! ## The ranking (`getTopStates`) -/

/-- The expression `latestRow[state] || 0`: `null`, `undefined`, `NaN` and
`0` all give `0`. -/
def rankValue (latestRow : Row) (state : String) : JsNum :=
  match latestRow.get state with
  | some n => if n.truthy then n else JsNum.fin 0
  | none => JsNum.fin 0

/-- The reading of a series in a row with `null` and a missing key counted
as `0`, as the ranking contract words it; a reading that is a number is
taken as it is. -/
def readingOrZero (row : Row) (state : String) : JsNum :=
  match row.get state with
  | some n => n
  | none => JsNum.fin 0

/-- Line 76: `availableDates.filter(date => date >= dateRange.start &&
date <= dateRange.end)`. -/
def filteredDates (availableDates : List String) (dateRange : DateRange) : List String :=
  availableDates.filter (fun date => inRange dateRange date)

/-- Lines 76 to 80: the row of the latest date in the range, `none` where
the code returns `[]` early. -/
def latestRow (data : List Row) (availableDates : List String) (dateRange : DateRange) :
    Option Row :=
  match (filteredDates availableDates dateRange).getLast? with
  | none => none
  | some latestDate =>
    if latestDate = "" then none
    else data.find? (fun row => row.date == latestDate)

/-- The comparator `(a, b) => b.sum - a.sum` of line 87. -/
def bySumDesc (a b : String × JsNum) : JsNum :=
  JsNum.sub b.2 a.2

/-- Lines 82 to 89: rank the series of one row. -/
def rankStates (row : Row) (allStates : List String) : List String :=
  let stateTotals := (allStates.filter (fun s => s != "United States")).map
    (fun state => (state, rankValue row state))
  ((jsSort bySumDesc stateTotals).take 5).map (fun s => s.1)

/-- The function `getTopStates`, lines 74 to 90. -/
def getTopStates (data : List Row) (availableDates : List String) (dateRange : DateRange)
    (allStates : List String) : List String :=
  if data.length = 0 then []
  else match latestRow data availableDates dateRange with
    | none => []
    | some row => rankStates row allStates

/-! ## The selection (`handleStateToggle`) -/

/-- The new value of `selectedStates` set by `handleStateToggle(state)`,
lines 101 to 107. -/
def handleStateToggle (selectedStates : List String) (state : String) : List String :=
  if selectedStates.contains state then selectedStates.filter (fun s => s != state)
  else selectedStates ++ [state]

/-! ## The rendering order (`sortedStates`) -/

/-- Lines 163 to 167.  The collation `a.localeCompare(b)` belongs to the
host environment and is a parameter. -/
def sortedStates (localeCompare : String → String → Int) (selectedStates allStates : List String) :
    List String :=
  "United States" ::
    (selectedStates ++
      jsSort (fun a b => JsNum.fin (localeCompare a b))
        (allStates.filter (fun s => s != "United States" && !selectedStates.contains s)))

/-! ## The tooltip (`CustomTooltip`) -/

/-- Lines 115 to 117: the row before the hovered one in `chartData`;
`none` is `null` (first row, or label not found). -/
def prevRowOf (chartData : List Row) (label : String) : Option Row :=
  match chartData.findIdx? (fun row => row.date == label) with
  | some currentIndex => if 0 < currentIndex then chartData[currentIndex - 1]? else none
  | none => none

/-- Lines 122 to 132: the value of `pct` for one payload entry (`none` is
`null`). -/
def tooltipPct (prevRow : Option Row) (dataKey : String) (value : Option JsNum) :
    Option JsNum :=
  match prevRow with
  | none => none
  | some pr =>
    match pr.get dataKey, value with
    | some prevVal, some v =>
      if prevVal ≠ JsNum.fin 0 then
        some (JsNum.mul (JsNum.div (JsNum.sub v prevVal) (JsNum.abs prevVal)) (JsNum.fin 100))
      else if v ≠ JsNum.fin 0 then some (JsNum.fin 100)
      else some (JsNum.fin 0)
    | _, _ => none

/-- The value `prevRow[entry.dataKey]` the tooltip reads as the previous
reading; `none` when there is no previous row. -/
def previousOf (prevRow : Option Row) (dataKey : String) : Option JsNum :=
  match prevRow with
  | some pr => pr.get dataKey
  | none => none

/-- The percent change as the specification words it (section 4.4):
`null` when either reading is missing, `0` for `0 → 0`, `100` for
`0 → x` with `x ≠ 0`, and `(current - previous) / abs(previous) * 100`
otherwise. -/
def percentChange (current previous : Option JsNum) : Option JsNum :=
  match previous, current with
  | none, _ => none
  | _, none => none
  | some p, some c =>
    if p = JsNum.fin 0 ∧ c = JsNum.fin 0 then some (JsNum.fin 0)
    else if p = JsNum.fin 0 ∧ c ≠ JsNum.fin 0 then some (JsNum.fin 100)
    else some (JsNum.mul (JsNum.div (JsNum.sub c p) (JsNum.abs p)) (JsNum.fin 100))

/-! ## Example data -/

/-- The table of the specification scenario, with the aggregate series
under its real name. -/
def exampleTable : List Row :=
  [ { date := "2024-01-01"
      cells := [("United States", some (JsNum.fin 100)), ("CA", some (JsNum.fin 30)),
        ("TX", some (JsNum.fin 20))] },
    { date := "2024-01-08"
      cells := [("United States", some (JsNum.fin 110)), ("CA", some (JsNum.fin 33)),
        ("TX", some (JsNum.fin 18))] } ]

/-- A one-row table in which `CA` and `TX` tie and `FL` has no reading. -/
def tieTable : List Row :=
  [ { date := "2024-01-08"
      cells := [("United States", some (JsNum.fin 110)), ("TX", some (JsNum.fin 20)),
        ("FL", none), ("CA", some (JsNum.fin 20))] } ]

/-- The full span of `exampleTable`. -/
def exampleRange : DateRange :=
  { start := "2024-01-01", end_ := "2024-01-08" }

/-- The last date of `exampleTable` alone. -/
def lastDateRange : DateRange :=
  { start := "2024-01-08", end_ := "2024-01-08" }

/-- A parsed record with a comma-grouped number, a zero and an empty
cell. -/
def firstRecord : Obj :=
  [("date", Val.str "2024-01-01"), ("CA", Val.str "1,234"), ("TX", Val.str "0"),
    ("FL", Val.str "")]

/-- A parsed record with a signed fraction, from a line that lacks its
last field. -/
def secondRecord : Obj :=
  [("date", Val.str "2024-01-08"), ("CA", Val.str "-1,300.5"), ("TX", Val.str "7")]

/-- The parsed records of a small file. -/
def exampleRecords : List Obj :=
  [firstRecord, secondRecord]

/-- One parsed record with non-numeric text under `CA` and the text
`Infinity` under `TX`. -/
def oddRecords : List Obj :=
  [ [("date", Val.str "2024-01-01"), ("CA", Val.str "abc"), ("TX", Val.str "Infinity")] ]

/-- The state loaded from `oddRecords`. -/
def oddLoaded : Loaded :=
  { data := [ [("date", Val.str "2024-01-01"), ("CA", Val.num JsNum.nan),
      ("TX", Val.num JsNum.posInf)] ]
    availableDates := [Val.str "2024-01-01"]
    rangeStart := Val.str "2024-01-01"
    rangeEnd := Val.str "2024-01-01"
    allStates := ["CA", "TX"] }

/-- The record parsed from the file `date, FL` / `2024-01-01,0`: the second
header name carries a leading blank and the cell is a measured zero. -/
def paddedRecords : List Obj :=
  [ [("date", Val.str "2024-01-01"), (" FL", Val.str "0")] ]

/-- The state loaded from `paddedRecords`. -/
def paddedLoaded : Loaded :=
  { data := [ [("date", Val.str "2024-01-01"), ("FL", Val.null)] ]
    availableDates := [Val.str "2024-01-01"]
    rangeStart := Val.str "2024-01-01"
    rangeEnd := Val.str "2024-01-01"
    allStates := ["FL"] }

/-- A table whose rows are not in ascending date order, with two rows of
the same date. -/
def unsortedTable : List Row :=
  [ { date := "2024-01-08", cells := [("CA", some (JsNum.fin 1)), ("TX", some (JsNum.fin 2))] },
    { date := "2024-01-01", cells := [("CA", some (JsNum.fin 5)), ("TX", some (JsNum.fin 1))] },
    { date := "2024-01-01", cells := [("CA", some (JsNum.fin 0)), ("TX", some (JsNum.fin 9))] } ]

/-- A catalog in which the name `X` occurs twice, as the headers `X` and
` X` give it once trimmed. -/
def repeatedCatalog : List String :=
  ["X", "A", "B", "C", "D", "Y", "X"]

/-- A one-row table in which every series of `repeatedCatalog` reads `1`. -/
def flatTable : List Row :=
  [ { date := "2024-01-08"
      cells := [("X", some (JsNum.fin 1)), ("A", some (JsNum.fin 1)),
        ("B", some (JsNum.fin 1)), ("C", some (JsNum.fin 1)), ("D", some (JsNum.fin 1)),
        ("Y", some (JsNum.fin 1))] } ]

/-- Comparison by UTF-16 code units, a collation used to instantiate
`localeCompare` in examples. -/
def codeUnitCompare (a b : String) : Int :=
  if strLt a b then -1 else if strLt b a then 1 else 0

/-! ## Lemmas on the string order -/

theorem codeUnitCompare_le_zero_iff (a b : String) :
    codeUnitCompare a b ≤ 0 ↔ utf16Units a ≤ utf16Units b := by
  unfold codeUnitCompare strLt
  by_cases h1 : utf16Units a < utf16Units b
  · simp [h1, le_of_lt h1]
  · by_cases h2 : utf16Units b < utf16Units a
    · simp [h1, h2]
    · simp [h1, h2, not_lt.mp h2]

theorem strGe_iff (a b : String) : strGe a b = true ↔ utf16Units b ≤ utf16Units a := by
  simp [strGe, strLt]

theorem strLe_iff (a b : String) : strLe a b = true ↔ utf16Units a ≤ utf16Units b := by
  simp [strLe, strLt]

theorem inRange_iff (r : DateRange) (d : String) :
    inRange r d = true ↔ utf16Units r.start ≤ utf16Units d ∧ utf16Units d ≤ utf16Units r.end_ := by
  simp [inRange, strGe_iff, strLe_iff]

theorem inRange_widen {r r' : DateRange} (hs : strLe r'.start r.start = true)
    (he : strLe r.end_ r'.end_ = true) {d : String} (h : inRange r d = true) :
    inRange r' d = true := by
  rw [inRange_iff] at h ⊢
  rw [strLe_iff] at hs he
  exact ⟨le_trans hs h.1, le_trans h.2 he⟩

/-! ## Lemmas on sorting -/

theorem sortInsert_eq_orderedInsert {α : Type} (cmp : α → α → JsNum) (x : α) (l : List α) :
    sortInsert cmp x l = List.orderedInsert (fun a b => (cmp a b).isPos = false) x l := by
  induction l with
  | nil => rfl
  | cons y ys ih =>
    by_cases h : (cmp x y).isPos = true
    · simp [sortInsert, List.orderedInsert, h, ih]
    · simp [sortInsert, List.orderedInsert, h]

theorem jsSort_eq_insertionSort {α : Type} (cmp : α → α → JsNum) (l : List α) :
    jsSort cmp l = List.insertionSort (fun a b => (cmp a b).isPos = false) l := by
  induction l with
  | nil => rfl
  | cons x xs ih => simp [jsSort, List.insertionSort, ih, sortInsert_eq_orderedInsert]

theorem jsSort_perm {α : Type} (cmp : α → α → JsNum) (l : List α) : (jsSort cmp l).Perm l := by
  rw [jsSort_eq_insertionSort]
  exact List.perm_insertionSort _ l

theorem orderedInsert_congr {α : Type} (r r' : α → α → Prop) [DecidableRel r] [DecidableRel r']
    (x : α) (l : List α) (h : ∀ y ∈ l, (r x y ↔ r' x y)) :
    List.orderedInsert r x l = List.orderedInsert r' x l := by
  induction l with
  | nil => rfl
  | cons y ys ih =>
    have hy : r x y ↔ r' x y := h y (List.mem_cons_self _ _)
    have ih' := ih (fun z hz => h z (List.mem_cons_of_mem _ hz))
    by_cases hr : r x y
    · simp [List.orderedInsert, hr, hy.mp hr]
    · have hr' : ¬ r' x y := fun h' => hr (hy.mpr h')
      simp [List.orderedInsert, hr, hr', ih']

theorem insertionSort_congr {α : Type} (r r' : α → α → Prop) [DecidableRel r] [DecidableRel r']
    (l : List α) (h : ∀ x ∈ l, ∀ y ∈ l, (r x y ↔ r' x y)) :
    List.insertionSort r l = List.insertionSort r' l := by
  induction l with
  | nil => rfl
  | cons x xs ih =>
    have ih' := ih (fun a ha b hb => h a (List.mem_cons_of_mem _ ha) b (List.mem_cons_of_mem _ hb))
    simp only [List.insertionSort]
    rw [ih']
    apply orderedInsert_congr
    intro y hy
    have hy' : y ∈ xs := (List.mem_insertionSort r').mp hy
    exact h x (List.mem_cons_self _ _) y (List.mem_cons_of_mem _ hy')

/-! ## Lemmas on the order of numbers -/

theorem JsNum.nanToZero_of_ne_nan {n : JsNum} (h : n ≠ JsNum.nan) : n.nanToZero = n := by
  cases n <;> simp [JsNum.nanToZero] at h ⊢

theorem JsNum.nanToZero_ne_nan (n : JsNum) : n.nanToZero ≠ JsNum.nan := by
  cases n <;> simp [JsNum.nanToZero]

theorem JsNum.le_total_of_ne_nan {a b : JsNum} (ha : a ≠ JsNum.nan) (hb : b ≠ JsNum.nan) :
    JsNum.le a b = true ∨ JsNum.le b a = true := by
  cases a <;> cases b <;> simp [JsNum.le] at ha hb ⊢
  exact le_total _ _

theorem JsNum.le_trans_of_ne_nan {a b c : JsNum} (hb : b ≠ JsNum.nan)
    (hab : JsNum.le a b = true) (hbc : JsNum.le b c = true) : JsNum.le a c = true := by
  cases a <;> cases b <;> cases c <;> simp [JsNum.le] at hb hab hbc ⊢
  exact le_trans hab hbc

theorem JsNum.isPos_sub_eq_false_iff {a b : JsNum} (ha : a ≠ JsNum.nan) (hb : b ≠ JsNum.nan) :
    (JsNum.sub b a).isPos = false ↔ JsNum.le b a = true := by
  cases a <;> cases b <;> simp [JsNum.sub, JsNum.isPos, JsNum.le] at ha hb ⊢

theorem rankValue_ne_nan (row : Row) (state : String) : rankValue row state ≠ JsNum.nan := by
  unfold rankValue
  cases row.get state with
  | none => simp
  | some n =>
    cases n with
    | fin q =>
      by_cases h : q = 0 <;> simp [JsNum.truthy, h]
    | nan => simp [JsNum.truthy]
    | posInf => simp [JsNum.truthy]
    | negInf => simp [JsNum.truthy]

theorem jsSort_bySumDesc_sorted (l : List (String × JsNum)) (hl : ∀ p ∈ l, p.2 ≠ JsNum.nan) :
    (jsSort bySumDesc l).Pairwise (fun a b => JsNum.le b.2 a.2 = true) := by
  have hcongr : jsSort bySumDesc l =
      List.insertionSort (fun a b : String × JsNum =>
        JsNum.le b.2.nanToZero a.2.nanToZero = true) l := by
    rw [jsSort_eq_insertionSort]
    apply insertionSort_congr
    intro x hx y hy
    simp only [bySumDesc]
    rw [JsNum.isPos_sub_eq_false_iff (hl x hx) (hl y hy),
      JsNum.nanToZero_of_ne_nan (hl x hx), JsNum.nanToZero_of_ne_nan (hl y hy)]
  haveI : IsTotal (String × JsNum)
      (fun a b : String × JsNum => JsNum.le b.2.nanToZero a.2.nanToZero = true) :=
    ⟨fun a b => (JsNum.le_total_of_ne_nan (JsNum.nanToZero_ne_nan _)
      (JsNum.nanToZero_ne_nan _)).symm⟩
  haveI : IsTrans (String × JsNum)
      (fun a b : String × JsNum => JsNum.le b.2.nanToZero a.2.nanToZero = true) :=
    ⟨fun a b c hab hbc => JsNum.le_trans_of_ne_nan (JsNum.nanToZero_ne_nan _) hbc hab⟩
  have hsorted := List.sorted_insertionSort (fun a b : String × JsNum =>
    JsNum.le b.2.nanToZero a.2.nanToZero = true) l
  rw [hcongr]
  have hmem : ∀ p ∈ List.insertionSort (fun a b : String × JsNum =>
      JsNum.le b.2.nanToZero a.2.nanToZero = true) l, p.2 ≠ JsNum.nan :=
    fun p hp => hl p ((List.mem_insertionSort _).mp hp)
  refine List.Pairwise.imp_of_mem ?_ hsorted
  intro a b ha hb hab
  rw [JsNum.nanToZero_of_ne_nan (hmem a ha), JsNum.nanToZero_of_ne_nan (hmem b hb)] at hab
  exact hab

/-! ## Lemmas on the ranking -/

theorem stateTotals_snd (row : Row) (l : List String) :
    ∀ p ∈ l.map (fun state => (state, rankValue row state)), p.2 = rankValue row p.1 := by
  intro p hp
  rw [List.mem_map] at hp
  obtain ⟨s, _, rfl⟩ := hp
  rfl

theorem rankStates_props (row : Row) (allStates : List String) :
    (rankStates row allStates).length =
        min 5 (allStates.filter (fun s => s != "United States")).length ∧
      "United States" ∉ rankStates row allStates ∧
      (rankStates row allStates).Pairwise
        (fun a b => JsNum.le (rankValue row b) (rankValue row a) = true) ∧
      (∀ x ∈ allStates, x ≠ "United States" → x ∉ rankStates row allStates →
        ∀ y ∈ rankStates row allStates, JsNum.le (rankValue row x) (rankValue row y) = true) ∧
      (∀ x ∈ rankStates row allStates, x ∈ allStates) := by
  set pairs := (allStates.filter (fun s => s != "United States")).map
    (fun state => (state, rankValue row state)) with hpairs
  have hsnd : ∀ p ∈ pairs, p.2 = rankValue row p.1 := stateTotals_snd row _
  have hnan : ∀ p ∈ pairs, p.2 ≠ JsNum.nan := by
    intro p hp
    rw [hsnd p hp]
    exact rankValue_ne_nan row p.1
  have hperm : (jsSort bySumDesc pairs).Perm pairs := jsSort_perm _ _
  have hsorted := jsSort_bySumDesc_sorted pairs hnan
  have hmemS : ∀ p ∈ jsSort bySumDesc pairs, p ∈ pairs := fun p hp => hperm.subset hp
  have hdef : rankStates row allStates =
      ((jsSort bySumDesc pairs).take 5).map (fun s => s.1) := rfl
  have hfst : ∀ p ∈ pairs, p.1 ∈ allStates ∧ p.1 ≠ "United States" := by
    intro p hp
    rw [hpairs, List.mem_map] at hp
    obtain ⟨s, hs, rfl⟩ := hp
    rw [List.mem_filter] at hs
    exact ⟨hs.1, by simpa using hs.2⟩
  refine ⟨?_, ?_, ?_, ?_, ?_⟩
  · rw [hdef, List.length_map, List.length_take, hperm.length_eq, hpairs, List.length_map]
  · intro hmem
    rw [hdef, List.mem_map] at hmem
    obtain ⟨p, hp, hp1⟩ := hmem
    exact (hfst p (hmemS p (List.mem_of_mem_take hp))).2 hp1
  · rw [hdef, List.pairwise_map]
    have htake : ((jsSort bySumDesc pairs).take 5).Pairwise
        (fun a b => JsNum.le b.2 a.2 = true) :=
      hsorted.sublist (List.take_sublist _ _)
    refine List.Pairwise.imp_of_mem ?_ htake
    intro a b ha hb hab
    rw [← hsnd a (hmemS a (List.mem_of_mem_take ha)),
      ← hsnd b (hmemS b (List.mem_of_mem_take hb))]
    exact hab
  · intro x hx hxne hxnot y hy
    rw [hdef, List.mem_map] at hy
    obtain ⟨q, hq, rfl⟩ := hy
    have hxp : (x, rankValue row x) ∈ pairs := by
      rw [hpairs, List.mem_map]
      exact ⟨x, List.mem_filter.mpr ⟨hx, by simpa using hxne⟩, rfl⟩
    have hxs : (x, rankValue row x) ∈ jsSort bySumDesc pairs := hperm.symm.subset hxp
    have hxdrop : (x, rankValue row x) ∈ (jsSort bySumDesc pairs).drop 5 := by
      rw [← List.take_append_drop 5 (jsSort bySumDesc pairs), List.mem_append] at hxs
      rcases hxs with h | h
      · exfalso
        apply hxnot
        rw [hdef, List.mem_map]
        exact ⟨_, h, rfl⟩
      · exact h
    have hrel := List.Sorted.rel_of_mem_take_of_mem_drop hsorted hq hxdrop
    rw [← hsnd q (hmemS q (List.mem_of_mem_take hq))]
    exact hrel
  · intro x hx
    rw [hdef, List.mem_map] at hx
    obtain ⟨p, hp, rfl⟩ := hx
    exact (hfst p (hmemS p (List.mem_of_mem_take hp))).1

theorem indexOf_lt_indexOf_iff {a b : String} (hab : a ≠ b) (l : List String) :
    l.indexOf a < l.indexOf b ↔ ∃ l1 l2, l = l1 ++ a :: l2 ∧ b ∉ l1 := by
  induction l with
  | nil =>
    constructor
    · intro h
      simp at h
    · rintro ⟨l1, l2, h, _⟩
      simp at h
  | cons x t ih =>
    by_cases hxa : x = a
    · subst hxa
      constructor
      · intro _
        exact ⟨[], t, rfl, List.not_mem_nil _⟩
      · intro _
        rw [List.indexOf_cons_self, List.indexOf_cons_ne _ hab]
        exact Nat.succ_pos _
    · by_cases hxb : x = b
      · subst hxb
        constructor
        · intro h
          rw [List.indexOf_cons_self] at h
          exact absurd h (Nat.not_lt_zero _)
        · rintro ⟨l1, l2, h, hb⟩
          cases l1 with
          | nil =>
            simp only [List.nil_append, List.cons.injEq] at h
            exact absurd h.1 hxa
          | cons y l1' =>
            simp only [List.cons_append, List.cons.injEq] at h
            exact absurd (h.1 ▸ List.mem_cons_self _ _) hb
      · rw [List.indexOf_cons_ne _ hxa, List.indexOf_cons_ne _ hxb, Nat.succ_lt_succ_iff, ih]
        constructor
        · rintro ⟨l1, l2, h, hb⟩
          refine ⟨x :: l1, l2, by rw [h]; rfl, ?_⟩
          intro hm
          rw [List.mem_cons] at hm
          rcases hm with hm | hm
          · exact hxb hm.symm
          · exact hb hm
        · rintro ⟨l1, l2, h, hb⟩
          cases l1 with
          | nil =>
            simp only [List.nil_append, List.cons.injEq] at h
            exact absurd h.1 hxa
          | cons y l1' =>
            simp only [List.cons_append, List.cons.injEq] at h
            exact ⟨l1', l2, h.2, fun hm => hb (List.mem_cons_of_mem _ hm)⟩

theorem split_filter {α : Type} (p : α → Bool) {l l1 l2 : List α} {x y : α}
    (h : l = l1 ++ x :: l2) (hy : y ∉ l1) (hx : p x = true) :
    ∃ m1 m2, l.filter p = m1 ++ x :: m2 ∧ y ∉ m1 := by
  refine ⟨l1.filter p, l2.filter p, ?_, fun hm => hy (List.mem_filter.mp hm).1⟩
  rw [h, List.filter_append, List.filter_cons, if_pos hx]

theorem split_map {α β : Type} (g : α → β) (hg : Function.Injective g) {l l1 l2 : List α}
    {x y : α} (h : l = l1 ++ x :: l2) (hy : y ∉ l1) :
    ∃ m1 m2, l.map g = m1 ++ g x :: m2 ∧ g y ∉ m1 := by
  refine ⟨l1.map g, l2.map g, by rw [h, List.map_append, List.map_cons], ?_⟩
  intro hm
  rw [List.mem_map] at hm
  obtain ⟨z, hz, hzy⟩ := hm
  exact hy (hg hzy ▸ hz)

theorem split_take {α : Type} {l l1 l2 : List α} {x y : α} (h : l = l1 ++ x :: l2)
    (hy : y ∉ l1) (k : Nat) (hmem : y ∈ l.take k) :
    ∃ m1 m2, l.take k = m1 ++ x :: m2 ∧ y ∉ m1 := by
  by_cases hk : k ≤ l1.length
  · exfalso
    rw [h, List.take_append_of_le_length hk] at hmem
    exact hy (List.mem_of_mem_take hmem)
  · have hlt : l1.length < k := not_le.mp hk
    obtain ⟨j, hj⟩ : ∃ j, k - l1.length = j + 1 := ⟨k - l1.length - 1, by omega⟩
    refine ⟨l1, l2.take j, ?_, hy⟩
    rw [h, List.take_append_eq_append_take, List.take_of_length_le (le_of_lt hlt), hj,
      List.take_succ_cons]

theorem jsSort_filter_eq {α : Type} (cmp : α → α → JsNum) (P : α → Bool) (l : List α)
    (hP : ∀ x y, P x = true → P y = true → (cmp x y).isPos = false) :
    (jsSort cmp l).filter P = l.filter P := by
  have hsub : (l.filter P).Sublist (jsSort cmp l) := by
    rw [jsSort_eq_insertionSort]
    apply List.sublist_insertionSort
    · apply List.pairwise_of_forall_mem_list
      intro a ha b hb
      exact hP a b (List.mem_filter.mp ha).2 (List.mem_filter.mp hb).2
    · exact List.filter_sublist _
  have hsub2 : ((l.filter P).filter P).Sublist ((jsSort cmp l).filter P) := hsub.filter P
  rw [List.filter_filter] at hsub2
  simp only [Bool.and_self] at hsub2
  have hlen : (l.filter P).length = ((jsSort cmp l).filter P).length :=
    ((jsSort_perm cmp l).filter P).length_eq.symm
  exact (hsub2.eq_of_length hlen).symm

theorem split_jsSort {α : Type} [DecidableEq α] (cmp : α → α → JsNum) (P : α → Bool)
    (hP : ∀ x y, P x = true → P y = true → (cmp x y).isPos = false)
    {l l1 l2 : List α} {x y : α} (h : l = l1 ++ x :: l2) (hy : y ∉ l1)
    (hx : P x = true) (hPy : P y = true) :
    ∃ m1 m2, jsSort cmp l = m1 ++ x :: m2 ∧ y ∉ m1 := by
  have hf : (jsSort cmp l).filter P = l1.filter P ++ x :: l2.filter P := by
    rw [jsSort_filter_eq cmp P l hP, h, List.filter_append, List.filter_cons, if_pos hx]
  rw [List.filter_eq_append_iff] at hf
  obtain ⟨s1, s2, hs, hs1, hs2⟩ := hf
  rw [List.filter_eq_cons_iff] at hs2
  obtain ⟨t1, t2, ht, ht1, _, _⟩ := hs2
  refine ⟨s1 ++ t1, t2, by rw [hs, ht, List.append_assoc], ?_⟩
  intro hm
  rw [List.mem_append] at hm
  rcases hm with hm | hm
  · have : y ∈ s1.filter P := List.mem_filter.mpr ⟨hm, hPy⟩
    rw [hs1] at this
    exact hy (List.mem_filter.mp this).1
  · exact ht1 y hm hPy

theorem JsNum.isPos_sub_self (v : JsNum) : (JsNum.sub v v).isPos = false := by
  cases v <;> simp [JsNum.sub, JsNum.isPos]

theorem rankStates_ties (row : Row) (allStates : List String) (a b : String)
    (hprec : allStates.indexOf a < allStates.indexOf b)
    (ha : a ≠ "United States")
    (htie : rankValue row a = rankValue row b) (hmem : b ∈ rankStates row allStates) :
    a ∈ rankStates row allStates ∧
      (rankStates row allStates).indexOf a < (rankStates row allStates).indexOf b := by
  have hab : a ≠ b := by
    intro h
    rw [h] at hprec
    exact lt_irrefl _ hprec
  set pairs := (allStates.filter (fun s => s != "United States")).map
    (fun state => (state, rankValue row state)) with hpairs
  have hdef : rankStates row allStates =
      ((jsSort bySumDesc pairs).take 5).map (fun s => s.1) := rfl
  have hperm : (jsSort bySumDesc pairs).Perm pairs := jsSort_perm _ _
  have hsnd : ∀ p ∈ pairs, p.2 = rankValue row p.1 := stateTotals_snd row _
  obtain ⟨l1, l2, hl, hbl⟩ := (indexOf_lt_indexOf_iff hab allStates).mp hprec
  have ha' : (fun s : String => s != "United States") a = true := by simpa using ha
  obtain ⟨f1, f2, hf, hbf⟩ := split_filter (fun s : String => s != "United States") hl hbl ha'
  have hinj : Function.Injective (fun state : String => (state, rankValue row state)) := by
    intro s t hst
    exact congrArg Prod.fst hst
  obtain ⟨p1, p2, hp, hbp⟩ := split_map _ hinj hf hbf
  have hP : ∀ x y : String × JsNum,
      (decide (x.2 = rankValue row a)) = true → (decide (y.2 = rankValue row a)) = true →
      (bySumDesc x y).isPos = false := by
    intro x y hx hy
    simp only [decide_eq_true_eq] at hx hy
    simp only [bySumDesc, hx, hy]
    exact JsNum.isPos_sub_self _
  obtain ⟨s1, s2, hs, hbs⟩ := split_jsSort bySumDesc
    (fun p : String × JsNum => decide (p.2 = rankValue row a)) hP hp hbp
    (by simp) (by simp [htie])
  have hbtake : (b, rankValue row b) ∈ (jsSort bySumDesc pairs).take 5 := by
    rw [hdef, List.mem_map] at hmem
    obtain ⟨p, hp', hp1⟩ := hmem
    have := hsnd p (hperm.subset (List.mem_of_mem_take hp'))
    have hpe : p = (b, rankValue row b) := by
      cases p with
      | mk q1 q2 =>
        simp only at hp1 this
        rw [this, hp1]
    rw [← hpe]
    exact hp'
  obtain ⟨t1, t2, ht, hbt⟩ := split_take hs hbs 5 hbtake
  have hfst : (rankStates row allStates) = t1.map (fun s => s.1) ++ a :: t2.map (fun s => s.1) := by
    rw [hdef, ht, List.map_append, List.map_cons]
  have hbnot : b ∉ t1.map (fun s => s.1) := by
    intro hm
    rw [List.mem_map] at hm
    obtain ⟨p, hp', hp1⟩ := hm
    have hptake : p ∈ (jsSort bySumDesc pairs).take 5 := by
      rw [ht]
      exact List.mem_append_left _ hp'
    have := hsnd p (hperm.subset (List.mem_of_mem_take hptake))
    have hpe : p = (b, rankValue row b) := by
      cases p with
      | mk q1 q2 =>
        simp only at hp1 this
        rw [this, hp1]
    exact hbt (hpe ▸ hp')
  refine ⟨by rw [hfst]; simp, ?_⟩
  rw [indexOf_lt_indexOf_iff hab]
  exact ⟨_, _, hfst, hbnot⟩

theorem rankValue_eq (row : Row) (state : String) :
    rankValue row state = (readingOrZero row state).nanToZero := by
  unfold rankValue readingOrZero
  cases row.get state with
  | none => rfl
  | some n =>
    cases n with
    | fin q =>
      by_cases h : q = 0 <;> simp [JsNum.truthy, JsNum.nanToZero, h]
    | nan => simp [JsNum.truthy, JsNum.nanToZero]
    | posInf => simp [JsNum.truthy, JsNum.nanToZero]
    | negInf => simp [JsNum.truthy, JsNum.nanToZero]

theorem JsNum.lt_eq_false_of_le {x y : JsNum} (h : JsNum.le y x = true) :
    JsNum.lt x y = false := by
  cases x <;> cases y <;> simp [JsNum.le, JsNum.lt] at h ⊢
  exact h

theorem reading_order (row : Row) (a b : String)
    (h : JsNum.le (rankValue row b) (rankValue row a) = true) :
    JsNum.lt (readingOrZero row a) (readingOrZero row b) = false ∧
      (readingOrZero row a ≠ JsNum.nan → readingOrZero row b ≠ JsNum.nan →
        JsNum.le (readingOrZero row b) (readingOrZero row a) = true) := by
  rw [rankValue_eq, rankValue_eq] at h
  have key : readingOrZero row a ≠ JsNum.nan → readingOrZero row b ≠ JsNum.nan →
      JsNum.le (readingOrZero row b) (readingOrZero row a) = true := by
    intro ha hb
    rw [JsNum.nanToZero_of_ne_nan ha, JsNum.nanToZero_of_ne_nan hb] at h
    exact h
  refine ⟨?_, key⟩
  by_cases ha : readingOrZero row a = JsNum.nan
  · rw [ha]
    cases readingOrZero row b <;> rfl
  · by_cases hb : readingOrZero row b = JsNum.nan
    · rw [hb]
      cases readingOrZero row a <;> rfl
    · exact JsNum.lt_eq_false_of_le (key ha hb)

theorem strLe_refl (a : String) : strLe a a = true := by
  rw [strLe_iff]

theorem rel_getLast_of_pairwise {α : Type} {r : α → α → Prop} {l : List α} {d : α}
    (hp : l.Pairwise r) (hr : ∀ x, r x x) (hd : l.getLast? = some d) : ∀ x ∈ l, r x d := by
  rw [List.getLast?_eq_some_iff] at hd
  obtain ⟨ys, rfl⟩ := hd
  intro x hx
  rw [List.mem_append, List.mem_singleton] at hx
  rcases hx with hx | hx
  · exact (List.pairwise_append.mp hp).2.2 x hx d (List.mem_singleton_self d)
  · rw [hx]
    exact hr d

theorem latestRow_is_latest (data : List Row) (availableDates : List String)
    (dateRange : DateRange) (hdates : availableDates = data.map (fun row => row.date))
    (d : String) (hlast : (filteredDates availableDates dateRange).getLast? = some d)
    (hsorted : data.Pairwise (fun r s => strLe r.date s.date = true)) :
    ∀ other ∈ data, inRange dateRange other.date = true → strLe other.date d = true := by
  intro other hother hin
  have hp : (filteredDates availableDates dateRange).Pairwise
      (fun x y => strLe x y = true) := by
    unfold filteredDates
    apply List.Pairwise.sublist (List.filter_sublist _)
    rw [hdates, List.pairwise_map]
    exact hsorted
  apply rel_getLast_of_pairwise hp strLe_refl hlast
  unfold filteredDates
  rw [List.mem_filter, hdates]
  exact ⟨List.mem_map.mpr ⟨other, hother, rfl⟩, hin⟩

theorem latestRow_exists (data : List Row) (availableDates : List String)
    (dateRange : DateRange) (hdates : availableDates = data.map (fun row => row.date))
    (hne : ∀ row ∈ data, row.date ≠ "")
    (hin : ∃ row ∈ data, inRange dateRange row.date = true) :
    ∃ row, latestRow data availableDates dateRange = some row ∧ row ∈ data ∧
      inRange dateRange row.date = true ∧
      (filteredDates availableDates dateRange).getLast? = some row.date ∧
      data.find? (fun r => r.date == row.date) = some row := by
  obtain ⟨r0, hr0, hr0in⟩ := hin
  have hmem0 : r0.date ∈ filteredDates availableDates dateRange := by
    unfold filteredDates
    rw [List.mem_filter, hdates]
    exact ⟨List.mem_map.mpr ⟨r0, hr0, rfl⟩, hr0in⟩
  have hnil : filteredDates availableDates dateRange ≠ [] := List.ne_nil_of_mem hmem0
  obtain ⟨d, hd⟩ : ∃ d, (filteredDates availableDates dateRange).getLast? = some d := by
    cases h : (filteredDates availableDates dateRange).getLast? with
    | none => exact absurd (List.getLast?_eq_none_iff.mp h) hnil
    | some d => exact ⟨d, rfl⟩
  have hdmem : d ∈ filteredDates availableDates dateRange := List.mem_of_getLast?_eq_some hd
  unfold filteredDates at hdmem
  rw [List.mem_filter, hdates, List.mem_map] at hdmem
  obtain ⟨⟨r1, hr1, hr1d⟩, hdin⟩ := hdmem
  have hdne : d ≠ "" := hr1d ▸ hne r1 hr1
  have hfind : ∃ row, data.find? (fun row => row.date == d) = some row := by
    cases h : data.find? (fun row => row.date == d) with
    | none =>
      rw [List.find?_eq_none] at h
      exact absurd (by simpa using hr1d) (h r1 hr1)
    | some row => exact ⟨row, rfl⟩
  obtain ⟨row, hrow⟩ := hfind
  have hrd : row.date = d := by simpa using List.find?_some hrow
  refine ⟨row, ?_, List.mem_of_find?_eq_some hrow, ?_, ?_, ?_⟩
  · unfold latestRow
    rw [hd]
    simp only [hdne, if_false]
    exact hrow
  · rw [hrd]
    exact hdin
  · rw [hrd]
    exact hd
  · rw [hrd]
    exact hrow

/-! ## Theorems -/

/-- C1. The percent change computed by the tooltip, with the current value
`entry.value` and the previous value `prevRow[entry.dataKey]`, equals the
piecewise definition of the specification for every pair of readings,
missing ones included; in particular it is `null` as soon as a reading is
missing, `0` for `0 → 0` and `100` for `0 → x` whatever the sign of `x`. -/
theorem tooltipPct_eq_percentChange (prevRow : Option Row) (dataKey : String)
    (value : Option JsNum) :
    tooltipPct prevRow dataKey value = percentChange value (previousOf prevRow dataKey) := by
  unfold tooltipPct percentChange previousOf
  cases prevRow with
  | none => cases value <;> simp
  | some pr =>
    simp only []
    generalize pr.get dataKey = prev
    cases prev with
    | none => cases value <;> simp
    | some p =>
      cases value with
      | none => simp
      | some c =>
        by_cases h0 : p = JsNum.fin 0
        · by_cases hc : c = JsNum.fin 0 <;> simp [h0, hc]
        · simp [h0]

/-- C2, counterexample. With the selection `[CA, TX]`, toggling `CA` twice
gives `[TX, CA]`: the name comes back at the end, not at its old place. -/
theorem toggle_twice_not_identity :
    handleStateToggle (handleStateToggle ["CA", "TX"] "CA") "CA" = ["TX", "CA"] ∧
      handleStateToggle (handleStateToggle ["CA", "TX"] "CA") "CA" ≠ ["CA", "TX"] := by
  decide

/-- C2, amended. Toggling the same name twice gives the selection back
when the name was absent; when it was present the result is the selection
with the name removed and appended again at the end, the other names in
their original order. -/
theorem toggle_twice (S : List String) (n : String) :
    handleStateToggle (handleStateToggle S n) n =
      if n ∈ S then S.filter (fun s => s != n) ++ [n] else S := by
  by_cases h : n ∈ S
  · have h1 : handleStateToggle S n = S.filter (fun s => s != n) := by
      simp [handleStateToggle, h]
    have h2 : n ∉ S.filter (fun s => s != n) := by simp [List.mem_filter]
    rw [h1]
    simp [handleStateToggle, h]
  · have h1 : handleStateToggle S n = S ++ [n] := by
      simp [handleStateToggle, h]
    have h3 : S.filter (fun s => s != n) = S := by
      rw [List.filter_eq_self]
      intro a ha
      have : a ≠ n := fun e => h (e ▸ ha)
      simpa using this
    rw [h1]
    simp [handleStateToggle, h, List.filter_append, h3]

/-- C7. The transition of `handleStateToggle`: a present name is removed
and the rest keeps its order, an absent name is appended last; membership
of the name flips, and membership and relative order of every other name
are unchanged. -/
theorem handleStateToggle_spec (S : List String) (n : String) :
    (handleStateToggle S n = if n ∈ S then S.filter (fun s => s != n) else S ++ [n]) ∧
      (n ∈ handleStateToggle S n ↔ n ∉ S) ∧
      (∀ m : String, m ≠ n → (m ∈ handleStateToggle S n ↔ m ∈ S)) ∧
      (handleStateToggle S n).filter (fun s => s != n) = S.filter (fun s => s != n) ∧
      (S.filter (fun s => s != n)).Sublist S := by
  by_cases h : n ∈ S
  · simp [handleStateToggle, h, List.mem_filter]
    intro m hm _
    exact hm
  · simp [handleStateToggle, h, List.filter_append]
    intro m hm h1
    exact absurd h1 hm

/-- C7, an instance: toggling a selected and an unselected name. -/
theorem handleStateToggle_spec_witness :
    handleStateToggle ["CA", "TX", "FL"] "TX" = ["CA", "FL"] ∧
      handleStateToggle ["CA", "TX"] "FL" = ["CA", "TX", "FL"] ∧
      ("CA" ∈ handleStateToggle ["CA", "TX", "FL"] "TX" ↔ "CA" ∈ ["CA", "TX", "FL"]) := by
  refine ⟨by decide, by decide, ?_⟩
  exact (handleStateToggle_spec ["CA", "TX", "FL"] "TX").2.2.1 "CA" (by decide)

/-- C4. The date-range filter is idempotent, and widening the range
(`start' <= start` and `end <= end'`) keeps every row that was kept, in
the original table order: the narrow result is a sublist of the wide one,
which is a sublist of the table, and filtering the wide result with the
narrow range gives the narrow result.  The same holds for the filter on
`availableDates` in `getTopStates`. -/
theorem chartData_idempotent_monotone (data : List Row) (availableDates : List String)
    (r r' : DateRange) (hs : strLe r'.start r.start = true)
    (he : strLe r.end_ r'.end_ = true) :
    chartData (chartData data r) r = chartData data r ∧
      (∀ row ∈ chartData data r, row ∈ chartData data r') ∧
      (chartData data r).Sublist (chartData data r') ∧
      (chartData data r').Sublist data ∧
      chartData (chartData data r') r = chartData data r ∧
      filteredDates (filteredDates availableDates r) r = filteredDates availableDates r ∧
      (filteredDates availableDates r).Sublist (filteredDates availableDates r') := by
  have key : ∀ d : String, inRange r d = true → inRange r' d = true :=
    fun d h => inRange_widen hs he h
  have hfilter : chartData (chartData data r') r = chartData data r := by
    unfold chartData
    rw [List.filter_filter]
    apply List.filter_congr
    intro row _
    by_cases h : inRange r row.date = true
    · simp [h, key _ h]
    · simp [h]
  refine ⟨?_, ?_, ?_, ?_, hfilter, ?_, ?_⟩
  · unfold chartData
    rw [List.filter_filter]
    simp
  · intro row hrow
    unfold chartData at hrow ⊢
    rw [List.mem_filter] at hrow ⊢
    exact ⟨hrow.1, key _ hrow.2⟩
  · rw [← hfilter]
    exact List.filter_sublist _
  · exact List.filter_sublist _
  · unfold filteredDates
    rw [List.filter_filter]
    simp
  · have : filteredDates (filteredDates availableDates r') r = filteredDates availableDates r := by
      unfold filteredDates
      rw [List.filter_filter]
      apply List.filter_congr
      intro d _
      by_cases h : inRange r d = true
      · simp [h, key _ h]
      · simp [h]
    rw [← this]
    exact List.filter_sublist _

/-- C4, an instance: widening `[2024-01-08, 2024-01-08]` to the full span
of the example table keeps the row that was kept. -/
theorem chartData_idempotent_monotone_witness :
    strLe exampleRange.start lastDateRange.start = true ∧
      strLe lastDateRange.end_ exampleRange.end_ = true ∧
      (chartData exampleTable lastDateRange).Sublist (chartData exampleTable exampleRange) ∧
      (chartData exampleTable lastDateRange).map (fun row => row.date) = ["2024-01-08"] :=
  ⟨by decide, by decide,
    (chartData_idempotent_monotone exampleTable ["2024-01-01", "2024-01-08"] lastDateRange
      exampleRange (by decide) (by decide)).2.2.1,
    by decide⟩

/-- C3. When `availableDates` holds the dates of the table, no date is
empty (the loader keeps only rows with a date) and the range contains a
table date, `getTopStates` ranks the row of the latest in-range date: the
first row that carries the last in-range date of the table order, which is
the greatest in-range date when the table is in ascending date order.  It
returns `min(5, m)` names, `m` being the number of catalog names other
than `United States`; none of them is `United States`; along the list the
readings of that row, `null` and missing counted as `0`, never increase;
and every non-aggregate catalog name that is not returned has a reading no
greater than that of every returned name.  A `NaN` reading compares with
no number; the code ranks it as `0`. -/
theorem getTopStates_spec (data : List Row) (availableDates : List String)
    (dateRange : DateRange) (allStates : List String)
    (hdates : availableDates = data.map (fun row => row.date))
    (hne : ∀ row ∈ data, row.date ≠ "")
    (hin : ∃ row ∈ data, inRange dateRange row.date = true) :
    ∃ row, latestRow data availableDates dateRange = some row ∧ row ∈ data ∧
      inRange dateRange row.date = true ∧
      (filteredDates availableDates dateRange).getLast? = some row.date ∧
      data.find? (fun r => r.date == row.date) = some row ∧
      (data.Pairwise (fun r s => strLe r.date s.date = true) →
        ∀ other ∈ data, inRange dateRange other.date = true →
          strLe other.date row.date = true) ∧
      (getTopStates data availableDates dateRange allStates).length =
        min 5 (allStates.filter (fun s => s != "United States")).length ∧
      "United States" ∉ getTopStates data availableDates dateRange allStates ∧
      (∀ x ∈ getTopStates data availableDates dateRange allStates, x ∈ allStates) ∧
      (getTopStates data availableDates dateRange allStates).Pairwise
        (fun a b => JsNum.lt (readingOrZero row a) (readingOrZero row b) = false) ∧
      (getTopStates data availableDates dateRange allStates).Pairwise
        (fun a b => readingOrZero row a ≠ JsNum.nan → readingOrZero row b ≠ JsNum.nan →
          JsNum.le (readingOrZero row b) (readingOrZero row a) = true) ∧
      (∀ x ∈ allStates, x ≠ "United States" →
        x ∉ getTopStates data availableDates dateRange allStates →
        ∀ y ∈ getTopStates data availableDates dateRange allStates,
          JsNum.lt (readingOrZero row y) (readingOrZero row x) = false ∧
          (readingOrZero row x ≠ JsNum.nan → readingOrZero row y ≠ JsNum.nan →
            JsNum.le (readingOrZero row x) (readingOrZero row y) = true)) ∧
      (∀ state, rankValue row state = (readingOrZero row state).nanToZero) := by
  obtain ⟨row, hrow, hmem, hrin, hlast, hfind⟩ := latestRow_exists data availableDates
    dateRange hdates hne hin
  have hlen : data.length ≠ 0 := by
    intro h
    rw [List.length_eq_zero] at h
    rw [h] at hmem
    simp at hmem
  have hget : getTopStates data availableDates dateRange allStates = rankStates row allStates := by
    unfold getTopStates
    rw [if_neg hlen, hrow]
  obtain ⟨p1, p2, p3, p4, p5⟩ := rankStates_props row allStates
  rw [hget]
  refine ⟨row, hrow, hmem, hrin, hlast, hfind,
    latestRow_is_latest data availableDates dateRange hdates row.date hlast,
    p1, p2, p5, ?_, ?_, ?_, rankValue_eq row⟩
  · exact p3.imp (fun {a b} h => (reading_order row a b h).1)
  · exact p3.imp (fun {a b} h => (reading_order row a b h).2)
  · intro x hx hxne hxnot y hy
    have h := reading_order row y x (p4 x hx hxne hxnot y hy)
    exact ⟨h.1, fun h1 h2 => h.2 h2 h1⟩

/-- C3, the specification scenario: the row `{US: 110, CA: 33, TX: 18}` of
the last date ranks `CA` before `TX` and omits the aggregate. -/
theorem getTopStates_spec_witness :
    getTopStates exampleTable ["2024-01-01", "2024-01-08"] exampleRange
        ["United States", "CA", "TX"] = ["CA", "TX"] ∧
      ∃ row, latestRow exampleTable ["2024-01-01", "2024-01-08"] exampleRange = some row ∧
        row ∈ exampleTable ∧ inRange exampleRange row.date = true ∧
        (filteredDates ["2024-01-01", "2024-01-08"] exampleRange).getLast? = some row.date ∧
        exampleTable.find? (fun r => r.date == row.date) = some row ∧
        (exampleTable.Pairwise (fun r s => strLe r.date s.date = true) →
          ∀ other ∈ exampleTable, inRange exampleRange other.date = true →
            strLe other.date row.date = true) ∧
        (getTopStates exampleTable ["2024-01-01", "2024-01-08"] exampleRange
          ["United States", "CA", "TX"]).length =
          min 5 (["United States", "CA", "TX"].filter (fun s => s != "United States")).length ∧
        "United States" ∉ getTopStates exampleTable ["2024-01-01", "2024-01-08"] exampleRange
          ["United States", "CA", "TX"] ∧
        (∀ x ∈ getTopStates exampleTable ["2024-01-01", "2024-01-08"] exampleRange
          ["United States", "CA", "TX"], x ∈ ["United States", "CA", "TX"]) ∧
        (getTopStates exampleTable ["2024-01-01", "2024-01-08"] exampleRange
          ["United States", "CA", "TX"]).Pairwise
          (fun a b => JsNum.lt (readingOrZero row a) (readingOrZero row b) = false) ∧
        (getTopStates exampleTable ["2024-01-01", "2024-01-08"] exampleRange
          ["United States", "CA", "TX"]).Pairwise
          (fun a b => readingOrZero row a ≠ JsNum.nan → readingOrZero row b ≠ JsNum.nan →
            JsNum.le (readingOrZero row b) (readingOrZero row a) = true) ∧
        (∀ x ∈ ["United States", "CA", "TX"], x ≠ "United States" →
          x ∉ getTopStates exampleTable ["2024-01-01", "2024-01-08"] exampleRange
            ["United States", "CA", "TX"] →
          ∀ y ∈ getTopStates exampleTable ["2024-01-01", "2024-01-08"] exampleRange
            ["United States", "CA", "TX"],
            JsNum.lt (readingOrZero row y) (readingOrZero row x) = false ∧
            (readingOrZero row x ≠ JsNum.nan → readingOrZero row y ≠ JsNum.nan →
              JsNum.le (readingOrZero row x) (readingOrZero row y) = true)) ∧
        (∀ state, rankValue row state = (readingOrZero row state).nanToZero) :=
  ⟨by with_unfolding_all decide,
    getTopStates_spec exampleTable ["2024-01-01", "2024-01-08"] exampleRange
      ["United States", "CA", "TX"] (by decide) (by decide)
      ⟨exampleTable.getLast (by decide), by decide, by decide⟩⟩

/-- C8. Ties keep the catalog order, for every catalog: when `a` precedes
`b` in `allStates` (the first occurrence of `a` comes before the first
occurrence of `b`), `a` is not the aggregate and both have the same ranking
value `row[state] || 0` in the latest in-range row, then `b` in the result
of `getTopStates` implies that `a` is in it too and comes before `b`. -/
theorem getTopStates_ties (data : List Row) (availableDates : List String)
    (dateRange : DateRange) (allStates : List String) (row : Row) (a b : String)
    (hrow : latestRow data availableDates dateRange = some row)
    (hprec : allStates.indexOf a < allStates.indexOf b)
    (ha : a ≠ "United States")
    (htie : rankValue row a = rankValue row b)
    (hmem : b ∈ getTopStates data availableDates dateRange allStates) :
    a ∈ getTopStates data availableDates dateRange allStates ∧
      (getTopStates data availableDates dateRange allStates).indexOf a <
        (getTopStates data availableDates dateRange allStates).indexOf b := by
  have hget : getTopStates data availableDates dateRange allStates = rankStates row allStates := by
    by_cases hlen : data.length = 0
    · unfold getTopStates at hmem
      rw [if_pos hlen] at hmem
      simp at hmem
    · unfold getTopStates
      rw [if_neg hlen, hrow]
  rw [hget] at hmem ⊢
  exact rankStates_ties row allStates a b hprec ha htie hmem

/-- C8, an instance with a repeated catalog name: `TX` and `CA` both read
`20`, the first `TX` comes before `CA` in the catalog, and the ranking is
`[TX, CA, TX, FL]`. -/
theorem getTopStates_ties_witness :
    getTopStates tieTable ["2024-01-08"] lastDateRange
        ["United States", "TX", "FL", "CA", "TX"] = ["TX", "CA", "TX", "FL"] ∧
      List.indexOf "TX" ["United States", "TX", "FL", "CA", "TX"] <
        List.indexOf "CA" ["United States", "TX", "FL", "CA", "TX"] ∧
      rankValue (tieTable.getLast (by decide)) "TX" =
        rankValue (tieTable.getLast (by decide)) "CA" ∧
      "TX" ∈ getTopStates tieTable ["2024-01-08"] lastDateRange
        ["United States", "TX", "FL", "CA", "TX"] ∧
      (getTopStates tieTable ["2024-01-08"] lastDateRange
          ["United States", "TX", "FL", "CA", "TX"]).indexOf "TX" <
        (getTopStates tieTable ["2024-01-08"] lastDateRange
          ["United States", "TX", "FL", "CA", "TX"]).indexOf "CA" :=
  ⟨by with_unfolding_all decide, by decide, by with_unfolding_all decide,
    getTopStates_ties tieTable ["2024-01-08"] lastDateRange
      ["United States", "TX", "FL", "CA", "TX"]
      (tieTable.getLast (by decide)) "TX" "CA" (by with_unfolding_all decide)
      (by decide) (by decide) (by with_unfolding_all decide)
      (by with_unfolding_all decide)⟩

/-- C5. For a collation that is a total preorder (`localeCompare a b ≤ 0`
is total and transitive), `sortedStates` is `United States`, then the
selection in its insertion order, then a list `rest` that holds exactly
the catalog names that are neither `United States` nor selected (a
permutation of them) in ascending collation order. -/
theorem sortedStates_spec (localeCompare : String → String → Int)
    (htotal : ∀ a b, localeCompare a b ≤ 0 ∨ localeCompare b a ≤ 0)
    (htrans : ∀ a b c, localeCompare a b ≤ 0 → localeCompare b c ≤ 0 → localeCompare a c ≤ 0)
    (selectedStates allStates : List String) :
    ∃ rest, sortedStates localeCompare selectedStates allStates =
        "United States" :: (selectedStates ++ rest) ∧
      rest.Perm
        (allStates.filter (fun s => s != "United States" && !selectedStates.contains s)) ∧
      (∀ s, s ∈ rest ↔ s ∈ allStates ∧ s ≠ "United States" ∧ s ∉ selectedStates) ∧
      rest.Pairwise (fun a b => localeCompare a b ≤ 0) := by
  refine ⟨jsSort (fun a b => JsNum.fin (localeCompare a b))
    (allStates.filter (fun s => s != "United States" && !selectedStates.contains s)),
    rfl, jsSort_perm _ _, ?_, ?_⟩
  · intro s
    rw [(jsSort_perm _ _).mem_iff, List.mem_filter]
    simp
  · rw [jsSort_eq_insertionSort]
    have hrel : ∀ a b : String,
        ((JsNum.fin (localeCompare a b)).isPos = false) ↔ localeCompare a b ≤ 0 := by
      intro a b
      simp [JsNum.isPos]
    haveI : IsTotal String (fun a b => (JsNum.fin (localeCompare a b)).isPos = false) :=
      ⟨fun a b => by
        rcases htotal a b with h | h
        · exact Or.inl ((hrel a b).mpr h)
        · exact Or.inr ((hrel b a).mpr h)⟩
    haveI : IsTrans String (fun a b => (JsNum.fin (localeCompare a b)).isPos = false) :=
      ⟨fun a b c hab hbc => (hrel a c).mpr (htrans a b c ((hrel a b).mp hab) ((hrel b c).mp hbc))⟩
    have hsorted := List.sorted_insertionSort
      (fun a b => (JsNum.fin (localeCompare a b)).isPos = false)
      (allStates.filter (fun s => s != "United States" && !selectedStates.contains s))
    exact List.Pairwise.imp (fun {a b} h => (hrel a b).mp h) hsorted

/-- C5, the specification scenario with the code-unit collation: the
selection `[TX]` and the catalog `{United States, CA, TX}` render as
`[United States, TX, CA]`. -/
theorem sortedStates_spec_witness :
    sortedStates codeUnitCompare ["TX"] ["United States", "CA", "TX"] =
        ["United States", "TX", "CA"] ∧
      ∃ rest, sortedStates codeUnitCompare ["TX"] ["United States", "CA", "TX"] =
          "United States" :: (["TX"] ++ rest) ∧
        rest.Perm (["United States", "CA", "TX"].filter
          (fun s => s != "United States" && !(["TX"].contains s))) ∧
        (∀ s, s ∈ rest ↔ s ∈ ["United States", "CA", "TX"] ∧ s ≠ "United States" ∧ s ∉ ["TX"]) ∧
        rest.Pairwise (fun a b => codeUnitCompare a b ≤ 0) :=
  ⟨by decide,
    sortedStates_spec codeUnitCompare
      (fun a b => by
        rw [codeUnitCompare_le_zero_iff, codeUnitCompare_le_zero_iff]
        exact le_total _ _)
      (fun a b c hab hbc => by
        rw [codeUnitCompare_le_zero_iff] at hab hbc ⊢
        exact le_trans hab hbc)
      ["TX"] ["United States", "CA", "TX"]⟩

/-- C10, the failing input. Once `United States` is toggled into the
selection, the rendering order lists it twice, whatever the collation:
the order is not duplicate-free and is not a permutation of the
catalog. -/
theorem sortedStates_repeats_aggregate (localeCompare : String → String → Int) :
    sortedStates localeCompare ["United States"] ["United States", "CA"] =
        ["United States", "United States", "CA"] ∧
      handleStateToggle [] "United States" = ["United States"] ∧
      ¬ (sortedStates localeCompare ["United States"] ["United States", "CA"]).Nodup ∧
      ¬ (sortedStates localeCompare ["United States"] ["United States", "CA"]).Perm
        ["United States", "CA"] := by
  have h : sortedStates localeCompare ["United States"] ["United States", "CA"] =
      ["United States", "United States", "CA"] := by
    have hf : (["United States", "CA"].filter
        (fun s => s != "United States" && !(["United States"].contains s))) = ["CA"] := by decide
    unfold sortedStates
    rw [hf]
    rfl
  refine ⟨h, by decide, ?_, ?_⟩
  · rw [h]
    decide
  · rw [h]
    intro hp
    have := hp.length_eq
    simp at this

/-! ## Lemmas on number literals -/

theorem isDecDigit_not_ws {c : Char} (h : isDecDigit c = true) : isJsWhiteSpace c = false := by
  simp only [isDecDigit, Bool.and_eq_true, decide_eq_true_eq] at h
  unfold isJsWhiteSpace
  generalize c.toNat = n at h ⊢
  simp
  omega

theorem dropWhile_of_head {p : Char → Bool} {c : Char} {t : List Char} (h : p c = false) :
    (c :: t).dropWhile p = c :: t := by
  simp [List.dropWhile, h]

theorem trimChars_of_no_ws (cs : List Char) (h : ∀ c ∈ cs, isJsWhiteSpace c = false) :
    trimChars cs = cs := by
  unfold trimChars
  have h1 : cs.dropWhile isJsWhiteSpace = cs := by
    cases cs with
    | nil => rfl
    | cons c t => exact dropWhile_of_head (h c (List.mem_cons_self _ _))
  rw [h1]
  have h2 : cs.reverse.dropWhile isJsWhiteSpace = cs.reverse := by
    cases hr : cs.reverse with
    | nil => rfl
    | cons c t =>
      have hc : c ∈ cs := by
        rw [← List.mem_reverse, hr]
        exact List.mem_cons_self _ _
      exact dropWhile_of_head (h c hc)
  rw [h2, List.reverse_reverse]

theorem decValue_bound (ds : List Char) (hd : ∀ c ∈ ds, isDecDigit c = true) (acc : Nat) :
    ds.foldl (fun acc c => 10 * acc + (c.toNat - 48)) acc + 1 ≤ (acc + 1) * 10 ^ ds.length := by
  induction ds generalizing acc with
  | nil => simp
  | cons c t ih =>
    have hc : c.toNat - 48 ≤ 9 := by
      have := hd c (List.mem_cons_self _ _)
      simp only [isDecDigit, Bool.and_eq_true, decide_eq_true_eq] at this
      omega
    have ht := ih (fun x hx => hd x (List.mem_cons_of_mem _ hx)) (10 * acc + (c.toNat - 48))
    simp only [List.foldl_cons, List.length_cons]
    calc List.foldl (fun acc c => 10 * acc + (c.toNat - 48)) (10 * acc + (c.toNat - 48)) t + 1
        ≤ (10 * acc + (c.toNat - 48) + 1) * 10 ^ t.length := ht
      _ ≤ (10 * acc + 10) * 10 ^ t.length := by
          apply Nat.mul_le_mul_right
          omega
      _ = (acc + 1) * 10 ^ (t.length + 1) := by ring

theorem decValue_lt (ds : List Char) (hd : ∀ c ∈ ds, isDecDigit c = true) :
    decValue ds < 10 ^ ds.length := by
  have := decValue_bound ds hd 0
  simp only [zero_add, one_mul] at this
  exact this

theorem radixPrefix_plain (sgn body : List Char)
    (hs : sgn = [] ∨ sgn = ['+'] ∨ sgn = ['-'])
    (hb : ∀ c ∈ body, isDecDigit c = true ∨ c = '.') :
    radixPrefix (sgn ++ body) = none := by
  rcases hs with rfl | rfl | rfl
  · match body, hb with
    | [], _ => rfl
    | [_], _ => rfl
    | c0 :: c1 :: t, hb =>
      have h1 := hb c1 (by simp)
      have hx : c1 ≠ 'x' := by rintro rfl; revert h1; decide
      have hX : c1 ≠ 'X' := by rintro rfl; revert h1; decide
      have ho : c1 ≠ 'o' := by rintro rfl; revert h1; decide
      have hO : c1 ≠ 'O' := by rintro rfl; revert h1; decide
      have hb' : c1 ≠ 'b' := by rintro rfl; revert h1; decide
      have hB : c1 ≠ 'B' := by rintro rfl; revert h1; decide
      simp [radixPrefix, hx, hX, ho, hO, hb', hB]
  · match body with
    | [] => rfl
    | c :: t => simp [radixPrefix]
  · match body with
    | [] => rfl
    | c :: t => simp [radixPrefix]

theorem parseUnsignedDecimal_plain (ds fs : List Char) (hne : ds ≠ [])
    (hd : ∀ c ∈ ds, isDecDigit c = true) (hf : ∀ c ∈ fs, isDecDigit c = true) :
    parseUnsignedDecimal ds = some (decValue ds : ℚ) ∧
      parseUnsignedDecimal (ds ++ '.' :: fs) =
        some ((decValue ds : ℚ) + (decValue fs : ℚ) / (10 : ℚ) ^ fs.length) := by
  constructor
  · have ht : ds.takeWhile isDecDigit = ds := List.takeWhile_eq_self_iff.mpr hd
    have hdw : ds.dropWhile isDecDigit = [] := List.dropWhile_eq_nil_iff.mpr hd
    unfold parseUnsignedDecimal
    simp only [ht, hdw]
    simp [hne, decValue]
  · have hdot : isDecDigit '.' = false := by decide
    have ht : (ds ++ '.' :: fs).takeWhile isDecDigit = ds := by
      rw [List.takeWhile_append_of_pos hd]
      simp [List.takeWhile, hdot]
    have hdw : (ds ++ '.' :: fs).dropWhile isDecDigit = '.' :: fs := by
      rw [List.dropWhile_append_of_pos hd]
      simp [List.dropWhile, hdot]
    have ht2 : fs.takeWhile isDecDigit = fs := List.takeWhile_eq_self_iff.mpr hf
    have hdw2 : fs.dropWhile isDecDigit = [] := List.dropWhile_eq_nil_iff.mpr hf
    unfold parseUnsignedDecimal
    simp only [ht, hdw, ht2, hdw2]
    simp [hne]

theorem parseUnsignedLiteral_plain (body : List Char) (q : ℚ) (c : Char) (t : List Char)
    (hbody : body = c :: t) (hc : isDecDigit c = true)
    (hq : parseUnsignedDecimal body = some q) :
    parseUnsignedLiteral body = some (MathValue.finite q) := by
  unfold parseUnsignedLiteral
  have hinf : body ≠ ['I', 'n', 'f', 'i', 'n', 'i', 't', 'y'] := by
    rw [hbody]
    intro h
    have : c = 'I' := by simpa using (List.cons.inj h).1
    rw [this] at hc
    revert hc
    decide
  rw [if_neg hinf, hq]
  rfl

theorem literalValue_plain (sgn ds fs tail : List Char)
    (hs : sgn = [] ∨ sgn = ['+'] ∨ sgn = ['-']) (hne : ds ≠ [])
    (hd : ∀ c ∈ ds, isDecDigit c = true) (hf : ∀ c ∈ fs, isDecDigit c = true)
    (htail : tail = [] ∨ tail = '.' :: fs) :
    ∃ q : ℚ, literalValue (sgn ++ ds ++ tail) = some (MathValue.finite q) ∧
      |q| < (10 : ℚ) ^ ds.length := by
  obtain ⟨c, t, hct⟩ : ∃ c t, ds = c :: t := by
    cases ds with
    | nil => exact absurd rfl hne
    | cons c t => exact ⟨c, t, rfl⟩
  have hc : isDecDigit c = true := hd c (by rw [hct]; exact List.mem_cons_self _ _)
  have hplus : c ≠ '+' := by rintro rfl; revert hc; decide
  have hminus : c ≠ '-' := by rintro rfl; revert hc; decide
  have hbodyall : ∀ x ∈ ds ++ tail, isDecDigit x = true ∨ x = '.' := by
    intro x hx
    rw [List.mem_append] at hx
    rcases hx with hx | hx
    · exact Or.inl (hd x hx)
    · rcases htail with rfl | rfl
      · simp at hx
      · rw [List.mem_cons] at hx
        rcases hx with hx | hx
        · exact Or.inr hx
        · exact Or.inl (hf x hx)
  obtain ⟨v, hv, hv0, hvlt⟩ : ∃ v : ℚ, parseUnsignedDecimal (ds ++ tail) = some v ∧ 0 ≤ v ∧
      v < (10 : ℚ) ^ ds.length := by
    have hdl : ((decValue ds : ℕ) : ℚ) + 1 ≤ (10 : ℚ) ^ ds.length := by
      have := decValue_lt ds hd
      exact_mod_cast this
    rcases htail with rfl | rfl
    · refine ⟨(decValue ds : ℚ), ?_, by positivity, by linarith⟩
      rw [List.append_nil]
      exact (parseUnsignedDecimal_plain ds fs hne hd hf).1
    · refine ⟨(decValue ds : ℚ) + (decValue fs : ℚ) / (10 : ℚ) ^ fs.length,
        (parseUnsignedDecimal_plain ds fs hne hd hf).2, by positivity, ?_⟩
      have hfl : ((decValue fs : ℕ) : ℚ) < (10 : ℚ) ^ fs.length := by
        have := decValue_lt fs hf
        exact_mod_cast this
      have hfrac : (decValue fs : ℚ) / (10 : ℚ) ^ fs.length < 1 := by
        rw [div_lt_one (by positivity)]
        exact hfl
      linarith
  have hbody : ds ++ tail = c :: (t ++ tail) := by rw [hct]; rfl
  have hlit := parseUnsignedLiteral_plain (ds ++ tail) v c (t ++ tail) hbody hc hv
  have hrp := radixPrefix_plain sgn (ds ++ tail) hs hbodyall
  have habs : |v| = v := abs_of_nonneg hv0
  rcases hs with rfl | rfl | rfl
  · refine ⟨v, ?_, by rw [habs]; exact hvlt⟩
    unfold literalValue
    simp only [List.nil_append] at hrp ⊢
    rw [hrp, hbody]
    simp only [List.cons_ne_nil, if_false, reduceCtorEq]
    split
    · next rest heq =>
      exact absurd (List.cons.inj heq).1 hplus
    · next rest heq =>
      exact absurd (List.cons.inj heq).1 hminus
    · rw [← hbody]
      exact hlit
  · refine ⟨v, ?_, by rw [habs]; exact hvlt⟩
    unfold literalValue
    rw [List.append_assoc, hrp]
    simp only [List.cons_append, List.nil_append, List.cons_ne_nil, if_false, reduceCtorEq]
    exact hlit
  · refine ⟨-v, ?_, by rw [abs_neg, habs]; exact hvlt⟩
    unfold literalValue
    rw [List.append_assoc, hrp]
    simp only [List.cons_append, List.nil_append, List.cons_ne_nil, if_false, reduceCtorEq]
    rw [hlit]
    rfl

theorem literalValue_none_of_head (c : Char) (t : List Char) (hd : isDecDigit c = false)
    (hplus : c ≠ '+') (hminus : c ≠ '-') (hdot : c ≠ '.') (hI : c ≠ 'I') :
    literalValue (c :: t) = none := by
  have h0 : c ≠ '0' := by rintro rfl; revert hd; decide
  have hrp : radixPrefix (c :: t) = none := by
    cases t with
    | nil => rfl
    | cons c1 t' => simp [radixPrefix, h0]
  have hinf : c :: t ≠ ['I', 'n', 'f', 'i', 'n', 'i', 't', 'y'] := by
    intro h
    exact hI (List.cons.inj h).1
  have hdec : parseUnsignedDecimal (c :: t) = none := by
    have ht : (c :: t).takeWhile isDecDigit = [] := by simp [List.takeWhile, hd]
    have hdw : (c :: t).dropWhile isDecDigit = c :: t := by simp [List.dropWhile, hd]
    unfold parseUnsignedDecimal
    simp only [ht, hdw]
    have hfp : (match c :: t with
      | '.' :: t' => List.takeWhile isDecDigit t'
      | _ => []) = [] := by
      split
      · next t' heq => exact absurd (List.cons.inj heq).1 hdot
      · rfl
    rw [hfp]
    simp
  unfold literalValue
  rw [if_neg (List.cons_ne_nil _ _), hrp]
  simp only
  split
  · next rest heq => exact absurd (List.cons.inj heq).1 hplus
  · next rest heq => exact absurd (List.cons.inj heq).1 hminus
  · unfold parseUnsignedLiteral
    rw [if_neg hinf, hdec]
    rfl

theorem pow_308_lt_overflowThreshold : (10 : ℚ) ^ 308 < overflowThreshold := by
  unfold overflowThreshold
  norm_num

theorem toDouble_isFinite_iff (q : ℚ) :
    (toDouble q).isFinite = true ↔ |q| < overflowThreshold := by
  unfold toDouble
  by_cases h : overflowThreshold ≤ |q|
  · rw [if_pos h]
    have : ¬ |q| < overflowThreshold := not_lt.mpr h
    by_cases hq : 0 < q <;> simp [hq, JsNum.isFinite, this]
  · rw [if_neg h]
    simp [JsNum.isFinite, not_le.mp h]

theorem stringToNumber_isFinite_iff (s : String) :
    (stringToNumber s).isFinite = true ↔
      ∃ q : ℚ, literalValue (trimChars s.data) = some (MathValue.finite q) ∧
        |q| < overflowThreshold := by
  unfold stringToNumber
  cases h : literalValue (trimChars s.data) with
  | none => simp [JsNum.isFinite]
  | some v =>
    cases v with
    | finite q =>
      simp only [MathValue.toNumber, toDouble_isFinite_iff, Option.some.injEq,
        MathValue.finite.injEq, exists_eq_left']
    | infinite negative =>
      cases negative <;> simp [MathValue.toNumber, JsNum.isFinite]

/-! ## Lemmas on the loader -/

theorem Obj.get_proto (o : Obj) : Obj.get o "__proto__" = Val.inherited := by
  simp [Obj.get, Obj.own, objectPrototypeMembers]

theorem Obj.lookup_set_self (o : Obj) (k : String) (v : Val) (hk : k ≠ "__proto__") :
    (Obj.set o k v).lookup k = some v := by
  induction o with
  | nil =>
    unfold Obj.set
    simp [hk, List.lookup]
  | cons p rest ih =>
    obtain ⟨k', v'⟩ := p
    unfold Obj.set
    rw [if_neg hk]
    by_cases h : k' = k
    · simp [h, List.lookup]
    · have hne : (k == k') = false := by
        simp only [beq_eq_false_iff_ne, ne_eq]
        exact fun e => h e.symm
      simp only [if_neg h, List.lookup_cons, hne]
      exact ih

theorem Obj.lookup_set_ne (o : Obj) (k k' : String) (v : Val) (hk : k' ≠ k) :
    (Obj.set o k v).lookup k' = o.lookup k' := by
  induction o with
  | nil =>
    unfold Obj.set
    by_cases hp : k = "__proto__"
    · simp [hp]
    · have hne : (k' == k) = false := by simpa using hk
      simp [hp, List.lookup, hne]
  | cons p rest ih =>
    obtain ⟨k0, v0⟩ := p
    unfold Obj.set
    by_cases hp : k = "__proto__"
    · simp [hp]
    · rw [if_neg hp]
      by_cases h : k0 = k
      · subst h
        have hne : (k' == k0) = false := by simpa using hk
        simp [List.lookup, hne]
      · simp only [if_neg h]
        by_cases h2 : (k' == k0) = true
        · simp [List.lookup_cons, h2]
        · have h2' : (k' == k0) = false := by simpa using h2
          simp only [List.lookup_cons, h2']
          exact ih

theorem Obj.get_set_self (o : Obj) (k : String) (v : Val) (hk : k ≠ "__proto__") :
    Obj.get (Obj.set o k v) k = v := by
  simp [Obj.get, Obj.own, hk, Obj.lookup_set_self o k v hk]

theorem Obj.get_set_ne (o : Obj) (k k' : String) (v : Val) (hk : k' ≠ k) :
    Obj.get (Obj.set o k v) k' = Obj.get o k' := by
  simp only [Obj.get, Obj.own, Obj.lookup_set_ne o k k' v hk]

theorem Obj.get_of_own {o : Obj} {k : String} {v : Val} (h : Obj.own o k = some v) :
    Obj.get o k = v := by
  simp [Obj.get, h]

theorem coerceRow_fold_get (row : Obj) (stateCols : List String) (acc : Obj)
    (state : String) (hk : state ≠ "__proto__") :
    Obj.get (stateCols.foldl
        (fun newRow st => Obj.set newRow st (coerceCell (Obj.get row st))) acc) state =
      if state ∈ stateCols then coerceCell (Obj.get row state) else Obj.get acc state := by
  induction stateCols generalizing acc with
  | nil => simp
  | cons c cs ih =>
    rw [List.foldl_cons, ih]
    by_cases h1 : state ∈ cs
    · simp [h1]
    · by_cases h2 : state = c
      · subst h2
        simp [h1, Obj.get_set_self _ _ _ hk]
      · simp [h1, h2, Obj.get_set_ne _ _ _ _ h2]

theorem coerceRow_get (row : Obj) (stateCols : List String) (state : String)
    (h : state ∈ stateCols) (hk : state ≠ "__proto__") :
    Obj.get (coerceRow stateCols row) state = coerceCell (Obj.get row state) := by
  unfold coerceRow
  rw [coerceRow_fold_get _ _ _ _ hk, if_pos h]

theorem coerceCell_null_or_num (raw : Val) :
    coerceCell raw = Val.null ∨ ∃ n, coerceCell raw = Val.num n := by
  unfold coerceCell
  simp only
  split
  · exact Or.inl rfl
  · exact Or.inr ⟨_, rfl⟩

theorem coerceCell_str (s : String) :
    (stripCommas s = "" → coerceCell (Val.str s) = Val.null) ∧
      (stripCommas s ≠ "" →
        coerceCell (Val.str s) = Val.num (stringToNumber (stripCommas s))) := by
  unfold coerceCell
  constructor
  · intro h
    simp [h]
  · intro h
    simp [h, Val.toNumber]

theorem coerceRow_get_not_str (row : Obj) (stateCols : List String) (state : String)
    (h : state ∈ stateCols) (s : String) :
    Obj.get (coerceRow stateCols row) state ≠ Val.str s := by
  by_cases hk : state = "__proto__"
  · rw [hk, Obj.get_proto]
    intro hs
    cases hs
  · rw [coerceRow_get row stateCols state h hk]
    intro hs
    rcases coerceCell_null_or_num (Obj.get row state) with h1 | ⟨n, h1⟩ <;>
      rw [h1] at hs <;> cases hs

theorem Obj.own_ne_proto {o : Obj} {k : String} {v : Val} (h : Obj.own o k = some v) :
    k ≠ "__proto__" := by
  intro hk
  simp [Obj.own, hk] at h

theorem loadCSV_of_rows (resultsData : List Obj) (row0 : Obj) (rest : List Obj)
    (hrows : resultsData.filter acceptedRow = row0 :: rest) :
    ∃ loaded, loadCSV resultsData = some loaded ∧ loaded.allStates = stateColsOf row0 ∧
      loaded.data = (row0 :: rest).map (coerceRow (stateColsOf row0)) := by
  unfold loadCSV
  simp only [hrows]
  exact ⟨_, rfl, rfl, rfl⟩

theorem literalValue_1e400 :
    literalValue (trimChars ("1e400" : String).data) = some (MathValue.finite ((10 : ℚ) ^ 400)) := by
  have ht : trimChars ("1e400" : String).data = ['1', 'e', '4', '0', '0'] := by decide
  rw [ht]
  have hr : radixPrefix ['1', 'e', '4', '0', '0'] = none := by decide
  have hp : parseSignedInteger ['4', '0', '0'] = some 400 := by decide
  have hd : decValue ['1'] = 1 := by decide
  have hd0 : decValue [] = 0 := by decide
  have hu : parseUnsignedDecimal ['1', 'e', '4', '0', '0'] = some ((10 : ℚ) ^ 400) := by
    have ht1 : ['1', 'e', '4', '0', '0'].takeWhile isDecDigit = ['1'] := by decide
    have ht2 : ['1', 'e', '4', '0', '0'].dropWhile isDecDigit = ['e', '4', '0', '0'] := by decide
    unfold parseUnsignedDecimal
    simp only [ht1, ht2, hp, hd, hd0]
    simp
    refine ⟨400, hp, ?_⟩
    rw [hd0]
    norm_num
  unfold literalValue
  simp only [hr, List.cons_ne_nil, if_false, reduceCtorEq]
  unfold parseUnsignedLiteral
  rw [if_neg (by decide), hu]
  rfl

/-- A literal beyond the binary64 range is read as an infinity. -/
theorem stringToNumber_overflow : stringToNumber "1e400" = JsNum.posInf := by
  unfold stringToNumber
  rw [literalValue_1e400]
  simp only [MathValue.toNumber, toDouble]
  have h : overflowThreshold ≤ |(10 : ℚ) ^ 400| := by
    unfold overflowThreshold
    rw [abs_of_pos (by positivity)]
    norm_num
  rw [if_pos h, if_pos (by positivity)]

theorem roundHalfEven_intCast (z : ℤ) : roundHalfEven (z : ℚ) = z := by
  unfold roundHalfEven
  simp

theorem floorLog2_natCast (n : ℕ) (hn : n ≠ 0) : floorLog2 (n : ℚ) = (Nat.log2 n : ℤ) := by
  unfold floorLog2
  have h1 : (n : ℚ).num.natAbs = n := by simp
  have h2 : (n : ℚ).den = 1 := by simp
  have h3 : Nat.log2 1 = 0 := by
    have := (Nat.log2_lt (n := 1) (k := 1) one_ne_zero).mpr (by norm_num)
    omega
  simp only [h1, h2, h3, Nat.cast_zero, sub_zero]
  have hle : (2 : ℚ) ^ ((Nat.log2 n : ℕ) : ℤ) ≤ (n : ℚ) := by
    rw [zpow_natCast]
    have := Nat.log2_self_le hn
    exact_mod_cast this
  rw [if_pos hle]

theorem roundBinary64_natCast (n : ℕ) (h : n < 2 ^ 53) : roundBinary64 (n : ℚ) = (n : ℚ) := by
  by_cases hn : n = 0
  · subst hn
    simp [roundBinary64]
  · have hq : (n : ℚ) ≠ 0 := by exact_mod_cast hn
    have hpos : (0 : ℚ) < n := by positivity
    have hL : Nat.log2 n < 53 := (Nat.log2_lt hn).mpr h
    unfold roundBinary64
    rw [if_neg hq]
    simp only [abs_of_pos hpos, floorLog2_natCast n hn, not_lt.mpr (le_of_lt hpos), if_false]
    have he : max ((Nat.log2 n : ℕ) : ℤ) (-1022) = (Nat.log2 n : ℤ) := by
      apply max_eq_left
      omega
    rw [he]
    obtain ⟨j, hj⟩ : ∃ j : ℕ, (Nat.log2 n : ℤ) - 52 = -(j : ℤ) := ⟨52 - Nat.log2 n, by omega⟩
    rw [hj]
    have hdiv : (n : ℚ) / (2 : ℚ) ^ (-(j : ℤ)) = ((n * 2 ^ j : ℕ) : ℤ) := by
      rw [zpow_neg, zpow_natCast, div_inv_eq_mul]
      push_cast
      ring
    rw [hdiv, roundHalfEven_intCast, zpow_neg, zpow_natCast]
    push_cast
    field_simp

theorem toDouble_natCast (n : ℕ) (h : n < 2 ^ 53) : toDouble (n : ℚ) = JsNum.fin n := by
  unfold toDouble
  have hlt : ¬ overflowThreshold ≤ |(n : ℚ)| := by
    rw [not_le, abs_of_nonneg (by positivity)]
    have h1 : (n : ℚ) < (2 : ℚ) ^ 53 := by exact_mod_cast h
    have h2 : (2 : ℚ) ^ 53 < overflowThreshold := by
      unfold overflowThreshold
      norm_num
    exact lt_trans h1 h2
  rw [if_neg hlt, roundBinary64_natCast n h]

theorem stringToNumber_digits (ds : List Char) (hne : ds ≠ [])
    (hd : ∀ c ∈ ds, isDecDigit c = true) (hlt : decValue ds < 2 ^ 53) :
    stringToNumber (String.mk ds) = JsNum.fin (decValue ds : ℚ) := by
  unfold stringToNumber
  have htrim : trimChars (String.mk ds).data = ds :=
    trimChars_of_no_ws ds (fun c hc => isDecDigit_not_ws (hd c hc))
  have hrp := radixPrefix_plain [] ds (Or.inl rfl) (fun c hc => Or.inl (hd c hc))
  obtain ⟨c, t, hct⟩ : ∃ c t, ds = c :: t := by
    cases ds with
    | nil => exact absurd rfl hne
    | cons c t => exact ⟨c, t, rfl⟩
  have hc : isDecDigit c = true := hd c (by rw [hct]; exact List.mem_cons_self _ _)
  have hplus : c ≠ '+' := by rintro rfl; revert hc; decide
  have hminus : c ≠ '-' := by rintro rfl; revert hc; decide
  have hlit := parseUnsignedLiteral_plain ds (decValue ds : ℚ) c t hct hc
    (parseUnsignedDecimal_plain ds [] hne hd (by simp)).1
  have hval : literalValue ds = some (MathValue.finite (decValue ds : ℚ)) := by
    unfold literalValue
    simp only [List.nil_append] at hrp
    rw [if_neg hne, hrp]
    simp only
    rw [hct] at hlit ⊢
    split
    · next rest heq =>
      exact absurd (List.cons.inj heq).1 hplus
    · next rest heq =>
      exact absurd (List.cons.inj heq).1 hminus
    · exact hlit
  rw [htrim, hval]
  exact toDouble_natCast _ hlt

theorem coerceCell_digits (s : String) (hne : stripCommas s ≠ "")
    (hd : ∀ c ∈ (stripCommas s).data, isDecDigit c = true)
    (hlt : decValue (stripCommas s).data < 2 ^ 53) :
    coerceCell (Val.str s) = Val.num (JsNum.fin (decValue (stripCommas s).data : ℚ)) := by
  rw [(coerceCell_str s).2 hne]
  have hdata : (stripCommas s).data ≠ [] := by
    intro hnil
    apply hne
    have : stripCommas s = String.mk (stripCommas s).data := rfl
    rw [this, hnil]
  have : stripCommas s = String.mk (stripCommas s).data := rfl
  rw [this, stringToNumber_digits _ hdata hd hlt]

/-! ## Theorems on the loader -/

/-- C6, counterexample. For the record `{date: "2024-01-01", CA: "abc",
TX: "Infinity"}` the loader stores `NaN` under `CA` and `+Infinity` under
`TX`: the stored values of two declared series keys are neither a finite
number nor `null`. -/
theorem loadCSV_stores_nan :
    loadCSV oddRecords = some oddLoaded ∧
      "CA" ∈ oddLoaded.allStates ∧ "TX" ∈ oddLoaded.allStates ∧
      oddLoaded.data.map (fun row => Obj.get row "CA") = [Val.num JsNum.nan] ∧
      oddLoaded.data.map (fun row => Obj.get row "TX") = [Val.num JsNum.posInf] ∧
      (Val.num JsNum.nan).isFiniteOrNull = false ∧
      (Val.num JsNum.posInf).isFiniteOrNull = false ∧
      ¬ (∀ row ∈ oddLoaded.data, ∀ state ∈ oddLoaded.allStates,
        (Obj.get row state).isFiniteOrNull = true) := by
  refine ⟨by decide, by decide, by decide, by decide, by decide, by decide, by decide, ?_⟩
  intro hall
  have := hall [("date", Val.str "2024-01-01"), ("CA", Val.num JsNum.nan),
    ("TX", Val.num JsNum.posInf)] (by decide) "CA" (by decide)
  revert this
  decide

/-- C6, amended. When the loader accepts the rows `row0 :: rest`, it loads
their coercions under the series names of `row0`, and under every series
name the stored value is never a string.  For every cell a record holds
under a series name, the stored value is `null` when the text is empty
once commas are stripped and otherwise the number `Number` reads from the
text without commas; it is a finite number or `null` exactly when that
text is empty or is a numeric literal of magnitude below `2^1024 - 2^970`,
which covers every plain decimal numeral (optional sign, up to 308 integer
digits, optional fraction).  Text that is no numeric literal is stored as
`NaN`, as is all text that after its leading white space starts with a
character other than a digit, a sign, a dot or `I`; the literal `Infinity`
and literals that overflow are stored as an infinity. -/
theorem loadCSV_cell_values (resultsData : List Obj) (row0 : Obj) (rest : List Obj)
    (hrows : resultsData.filter acceptedRow = row0 :: rest) :
    (∃ loaded, loadCSV resultsData = some loaded ∧ loaded.allStates = stateColsOf row0 ∧
        loaded.data = (row0 :: rest).map (coerceRow (stateColsOf row0))) ∧
      ∀ raw ∈ row0 :: rest, ∀ state ∈ stateColsOf row0,
        (∀ s, Obj.get (coerceRow (stateColsOf row0) raw) state ≠ Val.str s) ∧
        ∀ s, Obj.own raw state = some (Val.str s) →
          (stripCommas s = "" →
            Obj.get (coerceRow (stateColsOf row0) raw) state = Val.null) ∧
          (stripCommas s ≠ "" →
            Obj.get (coerceRow (stateColsOf row0) raw) state =
              Val.num (stringToNumber (stripCommas s))) ∧
          ((Obj.get (coerceRow (stateColsOf row0) raw) state).isFiniteOrNull = true ↔
            (stripCommas s = "" ∨
              ∃ q : ℚ, literalValue (trimChars (stripCommas s).data) =
                some (MathValue.finite q) ∧ |q| < overflowThreshold)) ∧
          (∀ sgn ds fs tail : List Char, (sgn = [] ∨ sgn = ['+'] ∨ sgn = ['-']) →
            ds ≠ [] → (∀ c ∈ ds, isDecDigit c = true) → (∀ c ∈ fs, isDecDigit c = true) →
            (tail = [] ∨ tail = '.' :: fs) → ds.length ≤ 308 →
            (stripCommas s).data = sgn ++ ds ++ tail →
            (Obj.get (coerceRow (stateColsOf row0) raw) state).isFiniteOrNull = true) ∧
          (∀ (c : Char) (t : List Char), trimChars (stripCommas s).data = c :: t →
            isDecDigit c = false → c ≠ '+' → c ≠ '-' → c ≠ '.' → c ≠ 'I' →
            Obj.get (coerceRow (stateColsOf row0) raw) state = Val.num JsNum.nan) := by
  refine ⟨loadCSV_of_rows resultsData row0 rest hrows, ?_⟩
  intro raw _ state hstate
  refine ⟨coerceRow_get_not_str raw _ state hstate, ?_⟩
  intro s hs
  have hk := Obj.own_ne_proto hs
  have hget : Obj.get (coerceRow (stateColsOf row0) raw) state = coerceCell (Val.str s) := by
    rw [coerceRow_get raw _ state hstate hk, Obj.get_of_own hs]
  rw [hget]
  obtain ⟨hnull, hnum⟩ := coerceCell_str s
  have hiff : (coerceCell (Val.str s)).isFiniteOrNull = true ↔
      (stripCommas s = "" ∨
        ∃ q : ℚ, literalValue (trimChars (stripCommas s).data) =
          some (MathValue.finite q) ∧ |q| < overflowThreshold) := by
    by_cases he : stripCommas s = ""
    · rw [hnull he]
      simp [Val.isFiniteOrNull, he]
    · rw [hnum he]
      simp only [Val.isFiniteOrNull, he, false_or]
      exact stringToNumber_isFinite_iff _
  refine ⟨hnull, hnum, hiff, ?_, ?_⟩
  swap
  · intro c t hct hd hplus hminus hdot hI
    have hne : stripCommas s ≠ "" := by
      intro he
      rw [he] at hct
      have hnil : trimChars ("" : String).data = [] := by decide
      rw [hnil] at hct
      cases hct
    rw [hnum hne]
    unfold stringToNumber
    rw [hct, literalValue_none_of_head c t hd hplus hminus hdot hI]
  intro sgn ds fs tail hsgn hne hd hf htail hlen hdata
  rw [hiff]
  right
  obtain ⟨q, hq, hqlt⟩ := literalValue_plain sgn ds fs tail hsgn hne hd hf htail
  have hnows : trimChars (stripCommas s).data = (stripCommas s).data := by
    rw [hdata]
    apply trimChars_of_no_ws
    intro c hc
    rw [List.mem_append, List.mem_append] at hc
    rcases hc with (hc | hc) | hc
    · rcases hsgn with rfl | rfl | rfl
      · simp at hc
      · rw [List.mem_singleton] at hc
        rw [hc]
        decide
      · rw [List.mem_singleton] at hc
        rw [hc]
        decide
    · exact isDecDigit_not_ws (hd c hc)
    · rcases htail with rfl | rfl
      · simp at hc
      · rw [List.mem_cons] at hc
        rcases hc with hc | hc
        · rw [hc]
          decide
        · exact isDecDigit_not_ws (hf c hc)
  refine ⟨q, by rw [hnows, hdata]; exact hq, ?_⟩
  calc |q| < (10 : ℚ) ^ ds.length := hqlt
    _ ≤ (10 : ℚ) ^ 308 := by
        apply pow_le_pow_right₀ (by norm_num) hlen
    _ < overflowThreshold := pow_308_lt_overflowThreshold

/-- C6, amended, on `exampleRecords`: both records are accepted, the
series names are `CA`, `TX` and `FL`, the cell `-1,300.5` of the second
record is stored as a finite number and the empty cell of the first as
`null`. -/
theorem loadCSV_cell_values_witness :
    exampleRecords.filter acceptedRow = firstRecord :: [secondRecord] ∧
      stateColsOf firstRecord = ["CA", "TX", "FL"] ∧
      (Obj.get (coerceRow (stateColsOf firstRecord) secondRecord) "CA").isFiniteOrNull = true ∧
      Obj.get (coerceRow (stateColsOf firstRecord) firstRecord) "FL" = Val.null :=
  ⟨by decide, by decide,
    ((loadCSV_cell_values exampleRecords firstRecord [secondRecord] (by decide)).2
      secondRecord (by decide) "CA" (by decide)).2 "-1,300.5" (by decide) |>.2.2.2.1
      ['-'] ['1', '3', '0', '0'] ['5'] ['.', '5'] (by decide) (by decide) (by decide)
      (by decide) (by decide) (by decide) (by decide),
    ((loadCSV_cell_values exampleRecords firstRecord [secondRecord] (by decide)).2
      firstRecord (by decide) "FL" (by decide)).2 "" (by decide) |>.1 (by decide)⟩

/-- C9, the failing input. The file `date, FL` / `2024-01-01,0` parses to
the record `{date: "2024-01-01", " FL": "0"}`.  The series name is trimmed
to `FL`, the record is then read under the trimmed name, which it does not
have, and `null` is stored: the measured zero of the column is loaded as
"no data", although the raw cell is the numeric string `0`, which read
under its own name coerces to the number `0`. -/
theorem loadCSV_padded_header_loses_zero :
    loadCSV paddedRecords = some paddedLoaded ∧
      stateColsOf [("date", Val.str "2024-01-01"), (" FL", Val.str "0")] = ["FL"] ∧
      Obj.get [("date", Val.str "2024-01-01"), (" FL", Val.str "0")] " FL" = Val.str "0" ∧
      Obj.get [("date", Val.str "2024-01-01"), (" FL", Val.str "0")] "FL" = Val.undefined ∧
      paddedLoaded.data.map (fun row => Obj.get row "FL") = [Val.null] ∧
      coerceCell (Val.str "0") = Val.num (JsNum.fin 0) := by
  refine ⟨by decide, by decide, by decide, by decide, by decide, ?_⟩
  have h := coerceCell_digits "0" (by decide) (by decide) (by decide)
  have hv : decValue (stripCommas "0").data = 0 := by decide
  rw [hv] at h
  simpa using h

/-! ## Scenarios of the specification -/

/-- The scenario `percentChange(33, 30) = 10`, on the example table: the
tooltip of `CA` at `2024-01-08`. -/
theorem tooltipPct_scenario :
    tooltipPct (prevRowOf (chartData exampleTable exampleRange) "2024-01-08") "CA"
      (some (JsNum.fin 33)) = some (JsNum.fin 10) := by
  with_unfolding_all decide

/-- A repeated catalog name: with every reading equal, the ranking of
`repeatedCatalog` keeps the first five names.  `Y` stands before the second
`X` but after the first one, so `X` precedes `Y` in the catalog; `X` is
returned and `Y` is not. -/
theorem getTopStates_repeated_name :
    getTopStates flatTable ["2024-01-08"] lastDateRange repeatedCatalog =
        ["X", "A", "B", "C", "D"] ∧
      repeatedCatalog.indexOf "X" < repeatedCatalog.indexOf "Y" := by
  with_unfolding_all decide

/-- The ranking follows the table order: in a table that is not in
ascending date order, the row ranked is the first one carrying the last
in-range date of the table order. -/
theorem getTopStates_table_order :
    getTopStates unsortedTable ["2024-01-08", "2024-01-01", "2024-01-01"] exampleRange
        ["United States", "CA", "TX"] = ["CA", "TX"] ∧
      (filteredDates ["2024-01-08", "2024-01-01", "2024-01-01"] exampleRange).getLast? =
        some "2024-01-01" := by
  with_unfolding_all decide

/-- The first row of the chart has no previous row, so no percentage. -/
theorem tooltipPct_first_row :
    tooltipPct (prevRowOf (chartData exampleTable exampleRange) "2024-01-01") "CA"
      (some (JsNum.fin 30)) = none := by
  decide

/-- Outside the failing input of C10 the rendering order is a permutation
of the catalog: for a duplicate-free catalog that contains `United States`
and a duplicate-free selection of catalog names other than `United States`,
every series is listed exactly once. -/
theorem sortedStates_perm_of_aggregate_not_selected
    (localeCompare : String → String → Int) (selectedStates allStates : List String)
    (hcat : allStates.Nodup) (hus : "United States" ∈ allStates)
    (hsel : selectedStates.Nodup) (hsub : ∀ s ∈ selectedStates, s ∈ allStates)
    (hnot : "United States" ∉ selectedStates) :
    (sortedStates localeCompare selectedStates allStates).Perm allStates ∧
      (sortedStates localeCompare selectedStates allStates).Nodup := by
  set rest := jsSort (fun a b => JsNum.fin (localeCompare a b))
    (allStates.filter (fun s => s != "United States" && !selectedStates.contains s)) with hrest
  have hperm : rest.Perm
      (allStates.filter (fun s => s != "United States" && !selectedStates.contains s)) :=
    jsSort_perm _ _
  have hmem : ∀ s, s ∈ rest ↔ s ∈ allStates ∧ s ≠ "United States" ∧ s ∉ selectedStates := by
    intro s
    rw [hperm.mem_iff, List.mem_filter]
    simp
  have hrn : rest.Nodup := hperm.nodup_iff.mpr (hcat.filter _)
  have hdef : sortedStates localeCompare selectedStates allStates =
      "United States" :: (selectedStates ++ rest) := rfl
  have hnodup : ("United States" :: (selectedStates ++ rest)).Nodup := by
    rw [List.nodup_cons, List.nodup_append]
    refine ⟨?_, hsel, hrn, ?_⟩
    · rw [List.mem_append]
      rintro (h | h)
      · exact hnot h
      · exact ((hmem _).mp h).2.1 rfl
    · intro s hs1 hs2
      exact ((hmem s).mp hs2).2.2 hs1
  rw [hdef]
  refine ⟨?_, hnodup⟩
  rw [List.perm_ext_iff_of_nodup hnodup hcat]
  intro s
  simp only [List.mem_cons, List.mem_append, hmem]
  constructor
  · rintro (h | h | h)
    · rw [h]; exact hus
    · exact hsub s h
    · exact h.1
  · intro h
    by_cases h1 : s = "United States"
    · exact Or.inl h1
    · by_cases h2 : s ∈ selectedStates
      · exact Or.inr (Or.inl h2)
      · exact Or.inr (Or.inr ⟨h, h1, h2⟩)

end Dashboard
